import Mathlib

/-!
Verification of the retrieval-and-grounding engine of the `rag` repository.

The Python source under `src/` is shallowly embedded: pure functions become
Lean functions over an explicit data model, effectful collaborator calls
(embedding backend, Qdrant vector database, chat-completion backend) become
explicit parameters carrying `Except`-style outcomes, and session state is
passed explicitly.  Metadata values follow the data model of the system
(scalar, sequence of scalars, or a flat mapping used for range operators).
-/

namespace Rag

/-- A scalar metadata value: string, integer or boolean
(the shapes produced by the upload widget and the file loader). -/
inductive SVal : Type where
  | s (v : String)
  | i (v : Int)
  | b (v : Bool)
deriving DecidableEq

/-- A metadata value: a scalar, a sequence of scalars (e.g. tags), or a flat
string-keyed mapping of scalars (e.g. the `gte`/`lte` operator objects). -/
inductive JVal : Type where
  | scalar (v : SVal)
  | seq (vs : List SVal)
  | map (kvs : List (String × SVal))
deriving DecidableEq

/-- A metadata mapping, as an association list (Python `dict` items in
insertion order). -/
abbrev Metadata : Type := List (String × JVal)

/-- `langchain_core.documents.Document`: the unit of ingested content. -/
structure Document where
  page_content : String
  metadata : Metadata
deriving DecidableEq

/-- First-match association-list lookup, i.e. Python `dict` access. -/
def lookupMeta (m : Metadata) (k : String) : Option JVal :=
  match m with
  | [] => none
  | (k', v) :: rest => if k' = k then some v else lookupMeta rest k

/-! ## Canonical JSON serialization (`json.dumps(..., sort_keys=True)`)

`QdrantVectorStore._generate_id` hashes
`document.page_content + json.dumps(document.metadata, sort_keys=True)`.
We model `json.dumps` with its default separators `", "` and `": "`, the
default string escapes for quote, backslash and control characters
(restricted here to `\n`, `\t`, `\r`; other control characters and the
non-ASCII `\uXXXX` escapes are outside the embedded value domain), and
`sort_keys=True` applied to every mapping level. -/

/-- Stable insertion of a key/value pair into a key-sorted association list. -/
def insKey {α : Type} (x : String × α) : List (String × α) → List (String × α)
  | [] => [x]
  | y :: ys => if x.1 ≤ y.1 then x :: y :: ys else y :: insKey x ys

/-- Stable sort of an association list by key (`sort_keys=True`). -/
def sortByKey {α : Type} : List (String × α) → List (String × α)
  | [] => []
  | x :: xs => insKey x (sortByKey xs)

/-- JSON escape of one character. -/
def escChar (c : Char) : List Char :=
  if c = '"' then ['\\', '"']
  else if c = '\\' then ['\\', '\\']
  else if c = '\n' then ['\\', 'n']
  else if c = '\t' then ['\\', 't']
  else if c = '\r' then ['\\', 'r']
  else [c]

/-- JSON escape of a character sequence. -/
def escStr : List Char → List Char
  | [] => []
  | c :: cs => escChar c ++ escStr cs

/-- Decimal digit character. -/
def digChar : Nat → Char
  | 0 => '0'
  | 1 => '1'
  | 2 => '2'
  | 3 => '3'
  | 4 => '4'
  | 5 => '5'
  | 6 => '6'
  | 7 => '7'
  | 8 => '8'
  | 9 => '9'
  | _ => '0'

/-- Value of a decimal digit character. -/
def digVal : Char → Nat
  | '1' => 1
  | '2' => 2
  | '3' => 3
  | '4' => 4
  | '5' => 5
  | '6' => 6
  | '7' => 7
  | '8' => 8
  | '9' => 9
  | _ => 0

/-- Decimal digits of a natural number, most significant first. -/
def natDigits (n : Nat) : List Char :=
  if _h : n < 10 then [digChar n]
  else natDigits (n / 10) ++ [digChar (n % 10)]
decreasing_by exact Nat.div_lt_self (by omega) (by omega)

/-- Decimal rendering of an integer (Python `str(int)` / JSON number). -/
def intRepr : Int → List Char
  | .ofNat n => natDigits n
  | .negSucc m => '-' :: natDigits (m + 1)

/-- JSON serialization of a scalar. -/
def serScalar : SVal → List Char
  | .s v => '"' :: (escStr v.data ++ ['"'])
  | .i n => intRepr n
  | .b true => ['t', 'r', 'u', 'e']
  | .b false => ['f', 'a', 'l', 's', 'e']

/-- JSON serialization of the elements of a list, joined by `", "`. -/
def seqInner : List SVal → List Char
  | [] => []
  | [v] => serScalar v
  | v :: w :: rest => serScalar v ++ ',' :: ' ' :: seqInner (w :: rest)

/-- One `"key": value` entry of a scalar-valued JSON object. -/
def opEntry (kv : String × SVal) : List Char :=
  '"' :: (escStr kv.1.data ++ '"' :: ':' :: ' ' :: serScalar kv.2)

/-- Entries of a scalar-valued JSON object, joined by `", "`. -/
def opInner : List (String × SVal) → List Char
  | [] => []
  | [kv] => opEntry kv
  | kv :: kv2 :: rest => opEntry kv ++ ',' :: ' ' :: opInner (kv2 :: rest)

/-- JSON serialization of a metadata value (nested mappings key-sorted). -/
def serJVal : JVal → List Char
  | .scalar v => serScalar v
  | .seq vs => '[' :: (seqInner vs ++ [']'])
  | .map kvs => '{' :: (opInner (sortByKey kvs) ++ ['}'])

/-- One `"key": value` entry of the top-level metadata object. -/
def topEntry (kv : String × JVal) : List Char :=
  '"' :: (escStr kv.1.data ++ '"' :: ':' :: ' ' :: serJVal kv.2)

/-- Entries of the top-level metadata object, joined by `", "`. -/
def topInner : Metadata → List Char
  | [] => []
  | [kv] => topEntry kv
  | kv :: kv2 :: rest => topEntry kv ++ ',' :: ' ' :: topInner (kv2 :: rest)

/-- `json.dumps(metadata, sort_keys=True)` as a character list. -/
def serMeta (m : Metadata) : List Char :=
  '{' :: (topInner (sortByKey m) ++ ['}'])

/-- `json.dumps(metadata, sort_keys=True)` as a string. -/
def jsonDumpsSorted (m : Metadata) : String :=
  String.mk (serMeta m)

/-- The string hashed by `QdrantVectorStore._generate_id`:
`document.page_content + json.dumps(document.metadata, sort_keys=True)`. -/
def digestInput (d : Document) : String :=
  d.page_content ++ jsonDumpsSorted d.metadata

/-- `QdrantVectorStore._generate_id`, parametric in the digest function
(`hashlib.md5(...).hexdigest()` in the source). -/
def generate_id (md5hex : String → String) (d : Document) : String :=
  md5hex (digestInput d)

/-! ## Filter compiler (`QdrantVectorStore._build_filter`) -/

/-- The four range operators of `qdrant_client.http.models.Range` used by
the source (each emitted `Range` object carries exactly one bound). -/
inductive RangeOp : Type where
  | gte
  | lte
  | gt
  | lt
deriving DecidableEq

/-- The condition payload of a `FieldCondition`: equality match, membership
match, or a single-bound range match. -/
inductive CondKind : Type where
  | matchValue (v : SVal)
  | matchAny (vs : List SVal)
  | range (op : RangeOp) (bound : SVal)
deriving DecidableEq

/-- `qdrant_client.http.models.FieldCondition`. -/
structure FieldCondition where
  key : String
  kind : CondKind
deriving DecidableEq

/-- `qdrant_client.http.models.Filter` restricted to the `must` clause the
source uses: the conjunction of its conditions. -/
structure Filter where
  must : List FieldCondition
deriving DecidableEq

/-- The inner `for op, val in value.items()` loop of `_build_filter`:
one range condition appended per recognized operator name, unrecognized
names contribute nothing. -/
def condsForOps (key : String) : List (String × SVal) → List FieldCondition
  | [] => []
  | (op, val) :: rest =>
    (if op = "gte" then [⟨"metadata." ++ key, .range .gte val⟩]
     else if op = "lte" then [⟨"metadata." ++ key, .range .lte val⟩]
     else if op = "gt" then [⟨"metadata." ++ key, .range .gt val⟩]
     else if op = "lt" then [⟨"metadata." ++ key, .range .lt val⟩]
     else []) ++ condsForOps key rest

/-- The conditions contributed by one `key, value` pair of the metadata
filter: operator object, sequence (membership), or scalar (equality). -/
def condsForPair (key : String) : JVal → List FieldCondition
  | .map ops => condsForOps key ops
  | .seq vs => [⟨"metadata." ++ key, .matchAny vs⟩]
  | .scalar v => [⟨"metadata." ++ key, .matchValue v⟩]

/-- The outer `for key, value in metadata_filter.items()` loop. -/
def buildConds : Metadata → List FieldCondition
  | [] => []
  | (k, v) :: rest => condsForPair k v ++ buildConds rest

/-- `QdrantVectorStore._build_filter`.  `none` input models Python `None`;
`if not metadata_filter` makes `None` and `{}` both return `None`, and an
empty condition list also yields `None`. -/
def build_filter (mf : Option Metadata) : Option Filter :=
  match mf with
  | none => none
  | some m =>
    if m = [] then none
    else
      let conditions := buildConds m
      if conditions = [] then none else some ⟨conditions⟩

/-- `op` is one of the operator names `_build_filter` recognizes. -/
def recognizedOp (op : String) : Bool :=
  op == "gte" || op == "lte" || op == "gt" || op == "lt"

/-- The value is an operator object none of whose operator names is
recognized by `_build_filter`. -/
def allOpsUnrecognized : JVal → Bool
  | .map ops => ops.all (fun q => !recognizedOp q.1)
  | _ => false

/-! ## Vector index (`QdrantVectorStore`) -/

/-- The payload stored with each point: `{"text": ..., "metadata": ...}`. -/
structure Payload where
  text : String
  metadata : Metadata
deriving DecidableEq

/-- A persisted point (also plays the role of `PointStruct` for upserts). -/
structure StoredPoint where
  id : String
  vector : List Rat
  payload : Payload
deriving DecidableEq

/-- A search hit (`qdrant_client.http.models.ScoredPoint`). -/
structure ScoredPoint where
  id : String
  score : Rat
  payload : Payload
deriving DecidableEq

/-- Resolve a condition key (`"metadata.<k>"`) against a payload. -/
def fieldValue (p : Payload) (key : String) : Option JVal :=
  if "metadata.".isPrefixOf key then lookupMeta p.metadata (key.drop 9)
  else none

/-- Numeric view of a scalar, used by range conditions. -/
def ratOfSVal : SVal → Option Rat
  | .i n => some (n : Rat)
  | _ => none

/-- Modelled from the spec: Qdrant's evaluation of one atomic condition
(the vector database is an external collaborator; only its client API is in
`src/`).  Equality match, membership match, and inclusive/exclusive numeric
range bounds per spec section 4.2. -/
def evalCond (p : Payload) (fc : FieldCondition) : Bool :=
  match fc.kind with
  | .matchValue v => fieldValue p fc.key == some (.scalar v)
  | .matchAny vs =>
    match fieldValue p fc.key with
    | some (.scalar sv) => vs.contains sv
    | _ => false
  | .range op bound =>
    match fieldValue p fc.key, ratOfSVal bound with
    | some (.scalar sv), some b =>
      match ratOfSVal sv with
      | some x =>
        match op with
        | .gte => decide (b ≤ x)
        | .lte => decide (x ≤ b)
        | .gt => decide (b < x)
        | .lt => decide (x < b)
      | none => false
    | _, _ => false

/-- Modelled from the spec: a `must` filter is the conjunction of its
conditions; no filter is no restriction. -/
def matchesFilter (flt : Option Filter) (p : Payload) : Bool :=
  match flt with
  | none => true
  | some f => f.must.all (evalCond p)

/-- Descending insertion by score. -/
def insScore (x : ScoredPoint) : List ScoredPoint → List ScoredPoint
  | [] => [x]
  | y :: ys => if y.score ≤ x.score then x :: y :: ys else y :: insScore x ys

/-- Sort hits by descending score. -/
def sortByScore : List ScoredPoint → List ScoredPoint
  | [] => []
  | x :: xs => insScore x (sortByScore xs)

/-- Modelled from the spec: the Qdrant backend search
(`client.search(collection_name, query_vector, limit, query_filter,
score_threshold)`), an external collaborator: score every stored point,
keep those matching the filter with score at least the threshold, order by
descending score, return at most `limit`.  The similarity function is a
parameter. -/
def qdrantSearch (pts : List StoredPoint) (scoreFn : List Rat → List Rat → Rat)
    (qv : List Rat) (limit : Nat) (flt : Option Filter) (threshold : Rat) :
    List ScoredPoint :=
  let scored := pts.map (fun p => ScoredPoint.mk p.id (scoreFn qv p.vector) p.payload)
  let hits := scored.filter
    (fun sp => matchesFilter flt sp.payload && decide (threshold ≤ sp.score))
  (sortByScore hits).take limit

/-- `QdrantVectorStore.search`: embed the query and call the backend inside
one `try`; any exception (embedding or backend) is caught, logged, and an
empty list is returned.  `embed` is the embedding collaborator's outcome
and `backendUp` tells whether the backend call raises. -/
def vectorStoreSearch (pts : List StoredPoint) (scoreFn : List Rat → List Rat → Rat)
    (embed : String → Except String (List Rat)) (backendUp : Bool)
    (query : String) (k : Nat) (mf : Option Metadata) (threshold : Rat) :
    List ScoredPoint :=
  match embed query with
  | .error _ => []
  | .ok qv =>
    if backendUp then qdrantSearch pts scoreFn qv k (build_filter mf) threshold
    else []

/-- Python truthiness of `str.strip()`-emptiness: the text is empty or
whitespace-only (`not doc.page_content or not doc.page_content.strip()`). -/
def isPyWS (c : Char) : Bool :=
  c = ' ' || c = '\t' || c = '\n' || c = '\r' || c = '\x0b' || c = '\x0c'

/-- The text is empty or consists only of whitespace. -/
def isBlank (s : String) : Bool :=
  s.data.all isPyWS

/-- Result of `QdrantVectorStore.add_documents`: the returned boolean, the
points handed to `client.upsert`, and the printed summary line (if any). -/
structure AddDocsOutcome where
  ok : Bool
  points : List StoredPoint
  summary : Option String
deriving DecidableEq

/-- `QdrantVectorStore.add_documents`: bail out if `create_collection`
fails; skip documents with empty/whitespace-only text; embed and upsert the
rest; print `"Added {len(points)} documents to collection {name}"`.
`collection_ok` and `upsert_ok` model the collaborator outcomes. -/
def add_documents (md5hex : String → String) (embedVec : String → List Rat)
    (collection_ok : Bool) (upsert_ok : Bool) (collection_name : String)
    (docs : List Document) : AddDocsOutcome :=
  if !collection_ok then ⟨false, [], none⟩
  else
    let pts := (docs.filter (fun d => !isBlank d.page_content)).map
      (fun d => ⟨generate_id md5hex d, embedVec d.page_content,
                 ⟨d.page_content, d.metadata⟩⟩)
    if upsert_ok then
      ⟨true, pts,
       some ("Added " ++ toString pts.length ++ " documents to collection "
             ++ collection_name)⟩
    else ⟨false, [], none⟩

/-- Number of documents `add_documents` skips for blank text. -/
def skippedCount (docs : List Document) : Nat :=
  (docs.filter (fun d => isBlank d.page_content)).length

/-! ## Context assembly (`RAGSystem._process_context`) -/

/-- Python truthiness of a metadata value. -/
def truthy : JVal → Bool
  | .scalar (.s v) => !(v == "")
  | .scalar (.i n) => !(n == 0)
  | .scalar (.b b) => b
  | .seq vs => !vs.isEmpty
  | .map kvs => !kvs.isEmpty

/-- Truthiness of `metadata.get(k)` (`None`, i.e. absent, is falsy). -/
def truthyGet (m : Metadata) (k : String) : Bool :=
  match lookupMeta m k with
  | some v => truthy v
  | none => false

/-- Python `sep.join(parts)`. -/
def joinSep (sep : String) : List String → String
  | [] => ""
  | [x] => x
  | x :: y :: rest => x ++ sep ++ joinSep sep (y :: rest)

/-- Python `str()` of a scalar. -/
def pyStrScalar : SVal → String
  | .s v => v
  | .i n => toString n
  | .b true => "True"
  | .b false => "False"

/-- Python `repr()` of a scalar (string escapes elided; display only). -/
def pyReprScalar : SVal → String
  | .s v => "\x27" ++ v ++ "\x27"
  | .i n => toString n
  | .b true => "True"
  | .b false => "False"

/-- Python `str()` of a metadata value, used for f-string interpolation. -/
def pyStr : JVal → String
  | .scalar v => pyStrScalar v
  | .seq vs => "[" ++ joinSep ", " (vs.map pyReprScalar) ++ "]"
  | .map kvs =>
    "\x7b" ++
      joinSep ", "
        (kvs.map (fun kv => "\x27" ++ kv.1 ++ "\x27: " ++ pyReprScalar kv.2))
      ++ "\x7d"

/-- `str()` of `metadata[k]` (only evaluated after a truthiness check). -/
def getDisplay (m : Metadata) (k : String) : String :=
  match lookupMeta m k with
  | some v => pyStr v
  | none => ""

/-- The `content_type` value when present and truthy (the source then
treats it as a string: `.upper()` and `==` comparisons). -/
def contentTypeStr (m : Metadata) : Option String :=
  match lookupMeta m "content_type" with
  | some v => if truthy v then some (pyStr v) else none
  | none => none

/-- The per-result body of `RAGSystem._process_context`: the raw text
followed by the content-type/page tag, caption lines, and flag markers,
joined by newlines. -/
def renderSegment (text : String) (m : Metadata) : String :=
  let contentInfo : List String :=
    match contentTypeStr m with
    | some ct =>
      let pageInfo := "Page " ++
        (match lookupMeta m "page" with
         | some pv => pyStr pv
         | none => "unknown")
      let tag := "[" ++ ct.toUpper ++ " - " ++ pageInfo ++ "]"
      let caps : List String :=
        if ct == "table" && truthyGet m "table_caption" then
          ["Table Caption: " ++ getDisplay m "table_caption"]
        else if ct == "figure" && truthyGet m "figure_caption" then
          ["Figure Caption: " ++ getDisplay m "figure_caption"]
        else if ct == "picture" && truthyGet m "picture_caption" then
          ("Picture Caption: " ++ getDisplay m "picture_caption") ::
            (if truthyGet m "image_format" then
              ["Image Format: " ++ getDisplay m "image_format"]
             else [])
        else []
      tag :: caps
    | none => []
  let flags : List String :=
    (if truthyGet m "contains_table" then ["📊 Contains Table"] else []) ++
    (if truthyGet m "contains_figure" then ["📈 Contains Figure"] else []) ++
    (if truthyGet m "contains_picture" then ["🖼️ Contains Picture"] else [])
  joinSep "\n" (text :: (contentInfo ++ flags))

/-- `RAGSystem._process_context`: render each processed result and join
with the fixed `"\n---\n"` separator. -/
def process_context (docs : List Payload) : String :=
  joinSep "\n---\n" (docs.map (fun d => renderSegment d.text d.metadata))

/-- Remove a key from a metadata mapping. -/
def eraseKey (k : String) : Metadata → Metadata
  | [] => []
  | kv :: rest => if kv.1 = k then eraseKey k rest else kv :: eraseKey k rest

/-! ## Prompt template (`RAGSystem._create_prompt`) -/

/-- Template text before the `context` slot, up to the quoted separator in
instruction 5. -/
def tplAa : String :=
  "\n<system>\nYou are an expert document analysis assistant created by \"ducnd58233\". Your role is to provide accurate, helpful answers based solely on the provided document context and conversation history.\n</system>\n\n<instructions>\n1. Answer questions using the information provided in this <conversation_history> and pieces of <context> to answer the question.\n2. If the <context> doesn\x27t provide enough information, just say that you don\x27t know, don\x27t try to make up an answer.\n3. Pay attention to the <context> of the question rather than just looking for similar keywords.\n4. End your response with \"\nThanks for asking!\"\n5. Please reranking following context given query as question before answer the question. each context was separated by "

/-- Template text after the quoted separator, up to the `context` slot. -/
def tplAb : String :=
  "\n6. Generate answer in the same language as the <user_question>, and should not contain the tag in the answer.\n\nFor tables and images in the context:\n- Format tables clearly when referencing them\n- Describe images and their content when mentioned\n</instructions>\n\n<context>\n"

/-- Template text before the `context` slot (instruction 5 quotes the
separator core `---`). -/
def tplA : String :=
  tplAa ++ "\"---\"" ++ tplAb

/-- Template text between the `context` and `history` slots. -/
def tplB : String :=
  "\n</context>\n\n<conversation_history>\n"

/-- Template text between the `history` and `question` slots. -/
def tplC : String :=
  "\n</conversation_history>\n\n<user_question>\n"

/-- Template text after the `question` slot. -/
def tplD : String :=
  "\n</user_question>\n\n<response_format>\nProvide a helpful answer based on the <context> above. If the <context> contains relevant information, use it to answer the <user_question>. If you need to reference specific information, mention it explicitly. Be confident in your response when the <context> provides useful information.\n</response_format>\n\n<answer>\nYour response here\n</answer>\n"

/-- The prompt template string of `RAGSystem._create_prompt`. -/
def promptTemplate : String :=
  tplA ++ "{context}" ++ tplB ++ "{history}" ++ tplC ++ "{question}" ++ tplD

/-- `PromptTemplate.format(history=..., context=..., question=...)`. -/
def renderPrompt (history context question : String) : String :=
  tplA ++ context ++ tplB ++ history ++ tplC ++ question ++ tplD

/-! ## Grounded-query orchestrator (`RAGSystem.search`) -/

/-- What one chat-completion invocation receives: the rendered text prompt
and the list of base64 image blobs attached as extra multimodal content
parts (`self.llm.invoke(prompt)` attaches none). -/
structure LLMCall where
  prompt : String
  images : List String
deriving DecidableEq

/-- The session-scoped conversation state (`self.history`). -/
structure RAGState where
  history : String
deriving DecidableEq

/-- The dictionary `RAGSystem.search` returns. -/
structure SearchResponse where
  result : String
  source_documents : List ScoredPoint
deriving DecidableEq

/-- The prompt `RAGSystem.search` renders for a query given the current
state and retrieved results. -/
def ragPrompt (st : RAGState) (query : String) (results : List ScoredPoint) :
    String :=
  renderPrompt st.history (process_context (results.map ScoredPoint.payload)) query

/-- The transcript line appended per call:
`f"query: {query} \n answer: {answer.content}"`. -/
def historyLine (query answer : String) : String :=
  "query: " ++ query ++ " \n answer: " ++ answer

/-- `RAGSystem.search`: retrieve (k = 10), assemble context, render the
prompt, invoke the completion collaborator with the text prompt (and no
image parts), append to the history, return answer and sources.  There is
no `try`/`except` in this method: a completion failure propagates to the
caller unchanged. -/
def rag_search (st : RAGState) (query : String)
    (pts : List StoredPoint) (scoreFn : List Rat → List Rat → Rat)
    (embed : String → Except String (List Rat)) (backendUp : Bool)
    (mf : Option Metadata) (score_threshold : Rat)
    (llm : LLMCall → Except String String) :
    Except String (SearchResponse × RAGState) :=
  let results := vectorStoreSearch pts scoreFn embed backendUp query 10 mf score_threshold
  match llm ⟨ragPrompt st query results, []⟩ with
  | .error e => .error e
  | .ok ans => .ok (⟨ans, results⟩, ⟨st.history ++ historyLine query ans⟩)

/-- `RAGSystem.clear_history`. -/
def clear_history (_st : RAGState) : RAGState := ⟨""⟩

/-! ## Separator counting (for the context-separator property) -/

/-- The characters of the fixed separator `"\n---\n"`. -/
def sepChars : List Char := ['\n', '-', '-', '-', '\n']

/-- Number of positions of `l` at which `pat` occurs. -/
def occCount (pat l : List Char) : Nat :=
  (List.range (l.length + 1)).countP (fun i => decide (pat <+: l.drop i))

/-- Whether three consecutive dashes occur somewhere. -/
def hasTriple : List Char → Bool
  | [] => false
  | c :: rest =>
    (match rest with
     | c2 :: c3 :: _ => c = '-' && c2 = '-' && c3 = '-'
     | _ => false) || hasTriple rest

/-- `a` occurs as a contiguous substring of `b`. -/
def occursIn (a b : String) : Prop :=
  a.data <:+: b.data

instance (a b : String) : Decidable (occursIn a b) :=
  inferInstanceAs (Decidable (a.data <:+: b.data))

/-! ## Helper lemmas -/

theorem occursIn_of_decomp {a b : String} (x y : String) (h : b = x ++ a ++ y) :
    occursIn a b := by
  subst h
  unfold occursIn
  rw [ String.data_append, String.data_append]
  exact List.infix_append x.data a.data y.data

theorem occursIn_trans {a b c : String} (h1 : occursIn a b) (h2 : occursIn b c) :
    occursIn a c :=
  h1.trans h2

/-- The metadata keys `renderSegment` reads. -/
def segKeys : List String :=
  ["content_type", "page", "table_caption", "figure_caption",
   "picture_caption", "image_format", "contains_table", "contains_figure",
   "contains_picture"]

theorem lookupMeta_eraseKey {k k' : String} (m : Metadata) (h : k' ≠ k) :
    lookupMeta (eraseKey k m) k' = lookupMeta m k' := by
  induction m with
  | nil => rfl
  | cons kv rest ih =>
    obtain ⟨k0, v⟩ := kv
    by_cases hk : k0 = k
    · have he : eraseKey k ((k0, v) :: rest) = eraseKey k rest := by
        simp [ eraseKey, hk]
      have hne : ¬ k0 = k' := fun h' => h (h'.symm.trans hk)
      rw [ he, ih]
      simp [ lookupMeta, hne]
    · have he : eraseKey k ((k0, v) :: rest) = (k0, v) :: eraseKey k rest := by
        simp [ eraseKey, hk]
      rw [ he]
      by_cases hk' : k0 = k'
      · simp [ lookupMeta, hk']
      · simp [ lookupMeta, hk', ih]

theorem renderSegment_eraseKey (text : String) (m : Metadata) (k : String)
    (hk : k ∉ segKeys) : renderSegment text (eraseKey k m) = renderSegment text m := by
  simp only [ segKeys, List.mem_cons, List.not_mem_nil, or_false] at hk
  push_neg at hk
  obtain ⟨h1, h2, h3, h4, h5, h6, h7, h8, h9⟩ := hk
  have e1 := @lookupMeta_eraseKey k "content_type" m h1.symm
  have e2 := @lookupMeta_eraseKey k "page" m h2.symm
  have e3 := @lookupMeta_eraseKey k "table_caption" m h3.symm
  have e4 := @lookupMeta_eraseKey k "figure_caption" m h4.symm
  have e5 := @lookupMeta_eraseKey k "picture_caption" m h5.symm
  have e6 := @lookupMeta_eraseKey k "image_format" m h6.symm
  have e7 := @lookupMeta_eraseKey k "contains_table" m h7.symm
  have e8 := @lookupMeta_eraseKey k "contains_figure" m h8.symm
  have e9 := @lookupMeta_eraseKey k "contains_picture" m h9.symm
  simp only [ renderSegment, contentTypeStr, truthyGet, getDisplay,
    e1, e2, e3, e4, e5, e6, e7, e8, e9]

theorem vectorStoreSearch_backend_down (pts : List StoredPoint)
    (sf : List Rat → List Rat → Rat) (embed : String → Except String (List Rat))
    (q : String) (k : Nat) (mf : Option Metadata) (thr : Rat) :
    vectorStoreSearch pts sf embed false q k mf thr = [] := by
  cases h : embed q <;> simp [ vectorStoreSearch, h]

/-! ## Claim theorems -/

/-- C1 (amended).  `RAGSystem.search` never attaches image blobs to the
completion call: the single completion invocation is text-only (any two
completion collaborators agreeing on image-free calls make `search` behave
identically), and the assembled text context never inlines a metadata key
outside the nine keys `_process_context` renders — in particular an
`image_base64` payload is neither inlined nor forwarded. -/
theorem rag_search_completion_text_only :
    (∀ st query pts sf embed bu mf thr
       (llm1 llm2 : LLMCall → Except String String),
       (∀ c, c.images = [] → llm1 c = llm2 c) →
       rag_search st query pts sf embed bu mf thr llm1 =
         rag_search st query pts sf embed bu mf thr llm2) ∧
    (∀ (docs : List Payload) (k : String), k ∉ segKeys →
       process_context (docs.map (fun d => ⟨d.text, eraseKey k d.metadata⟩)) =
         process_context docs) := by
  constructor
  · intro st query pts sf embed bu mf thr llm1 llm2 hagree
    simp only [ rag_search]
    rw [ hagree _ rfl]
  · intro docs k hk
    unfold process_context
    congr 1
    rw [ List.map_map]
    exact List.map_congr_left fun d _ => renderSegment_eraseKey d.text d.metadata k hk

/-- Witness for `rag_search_completion_text_only`. -/
theorem rag_search_completion_text_only_witness :
    (rag_search ⟨""⟩ "q" [] (fun _ _ => 0) (fun _ => .ok []) true none 0
        (fun _ => .ok "x") =
      rag_search ⟨""⟩ "q" [] (fun _ _ => 0) (fun _ => .ok []) true none 0
        (fun c => if c.images = [] then .ok "x" else .error "differ")) ∧
    process_context
        ([(⟨"t", [("image_base64", .scalar (.s "QUJD"))]⟩ : Payload)].map
          (fun d => ⟨d.text, eraseKey "image_base64" d.metadata⟩)) =
      process_context [⟨"t", [("image_base64", .scalar (.s "QUJD"))]⟩] := by
  refine ⟨rag_search_completion_text_only.1 ⟨""⟩ "q" [] (fun _ _ => 0)
    (fun _ => .ok []) true none 0 _ _ (fun c hc => by simp [hc]), ?_⟩
  exact rag_search_completion_text_only.2
    [⟨"t", [("image_base64", .scalar (.s "QUJD"))]⟩] "image_base64" (by decide)

/-- C1 (counterexample).  A stored point whose metadata carries a base64
image payload is retrieved, yet the completion call receives no image
parts: a completion collaborator that fails on image-free calls makes
`RAGSystem.search` fail, and the sole retrieved result does carry the
payload. -/
theorem rag_search_image_payload_not_passed :
    (vectorStoreSearch
        [⟨"p1", [1], ⟨"a picture", [("image_base64", .scalar (.s "QUJD"))]⟩⟩]
        (fun _ _ => 1) (fun _ => .ok [1]) true "q" 10 none 0 =
      [⟨"p1", 1, ⟨"a picture", [("image_base64", .scalar (.s "QUJD"))]⟩⟩]) ∧
    rag_search ⟨""⟩ "q"
        [⟨"p1", [1], ⟨"a picture", [("image_base64", .scalar (.s "QUJD"))]⟩⟩]
        (fun _ _ => 1) (fun _ => .ok [1]) true none 0
        (fun c => if c.images.isEmpty then .error "text-only call"
                  else .ok "saw images") =
      .error "text-only call" := by
  constructor
  · rfl
  · rfl

/-- C2 (amended).  Failure handling of `RAGSystem.search` and
`QdrantVectorStore.search`: an embedding failure or vector-database
failure is caught inside `QdrantVectorStore.search` and swallowed into an
empty result list, after which the grounded query still succeeds with
empty sources; a completion failure propagates to the caller unchanged,
with no wrapping into a domain error. -/
theorem collaborator_failure_handling :
    (∀ pts sf e bu q k mf thr,
       vectorStoreSearch pts sf (fun _ => .error e) bu q k mf thr = []) ∧
    (∀ pts sf embed q k mf thr,
       vectorStoreSearch pts sf embed false q k mf thr = []) ∧
    (∀ st query pts sf embed mf thr a,
       rag_search st query pts sf embed false mf thr (fun _ => .ok a) =
         .ok (⟨a, []⟩, ⟨st.history ++ historyLine query a⟩)) ∧
    (∀ st query pts sf embed bu mf thr e,
       rag_search st query pts sf embed bu mf thr (fun _ => .error e) =
         .error e) := by
  refine ⟨fun pts sf e bu q k mf thr => rfl,
          fun pts sf embed q k mf thr =>
            vectorStoreSearch_backend_down pts sf embed q k mf thr,
          fun st query pts sf embed mf thr a => ?_,
          fun st query pts sf embed bu mf thr e => rfl⟩
  simp only [ rag_search, vectorStoreSearch_backend_down]

/-- C2 (counterexample).  A vector-database failure during a grounded
query (the backend call raising) is silently swallowed: `RAGSystem.search`
returns a successful answer with empty sources instead of re-raising a
wrapped domain error. -/
theorem vector_failure_swallowed_cex :
    rag_search ⟨""⟩ "q" [] (fun _ _ => 0) (fun _ => .ok []) false none 0
        (fun _ => .ok "ans") =
      .ok (⟨"ans", []⟩, ⟨"query: q \n answer: ans"⟩) := by
  rfl

theorem condsForOps_unrecognized (key : String) (ops : List (String × SVal))
    (h : ∀ p ∈ ops, recognizedOp p.1 = false) : condsForOps key ops = [] := by
  induction ops with
  | nil => rfl
  | cons p rest ih =>
    have hp := h p (List.mem_cons_self p rest)
    simp only [ recognizedOp, Bool.or_eq_false_iff, beq_eq_false_iff_ne,
      ne_eq] at hp
    obtain ⟨⟨⟨hg, hl⟩, hgt⟩, hlt⟩ := hp
    obtain ⟨op, val⟩ := p
    simp only at hg hl hgt hlt
    simp only [ condsForOps, if_neg hg, if_neg hl, if_neg hgt, if_neg hlt,
      List.nil_append]
    exact ih (fun x hx => h x (List.mem_cons_of_mem _ hx))

theorem buildConds_unrecognized (m : Metadata)
    (h : ∀ kv ∈ m, allOpsUnrecognized kv.2 = true) : buildConds m = [] := by
  induction m with
  | nil => rfl
  | cons kv rest ih =>
    have hkv := h kv (List.mem_cons_self kv rest)
    obtain ⟨k0, v⟩ := kv
    have hpair : condsForPair k0 v = [] := by
      cases v with
      | scalar v => simp [ allOpsUnrecognized] at hkv
      | seq vs => simp [ allOpsUnrecognized] at hkv
      | map ops =>
        simp only [ allOpsUnrecognized, List.all_eq_true] at hkv
        exact condsForOps_unrecognized k0 ops (fun p hp => by
          have hx := hkv p hp
          simpa using hx)
    simp only [ buildConds, hpair, List.nil_append]
    exact ih (fun x hx => h x (List.mem_cons_of_mem _ hx))

/-- C10.  A non-empty metadata filter all of whose values are operator
objects with only unrecognized operator names compiles to no conditions,
so `_build_filter` returns `None` and the search runs unrestricted. -/
theorem unrecognized_ops_mean_no_restriction (m : Metadata) (h1 : m ≠ [])
    (h2 : m.all (fun kv => allOpsUnrecognized kv.2) = true) :
    build_filter (some m) = none ∧
    (∀ pts sf embed bu q k thr,
       vectorStoreSearch pts sf embed bu q k (some m) thr =
         vectorStoreSearch pts sf embed bu q k none thr) := by
  have hconds : buildConds m = [] :=
    buildConds_unrecognized m (List.all_eq_true.1 h2)
  have hbf : build_filter (some m) = none := by
    simp [ build_filter, h1, hconds]
  refine ⟨hbf, fun pts sf embed bu q k thr => ?_⟩
  unfold vectorStoreSearch
  rw [ hbf]
  rfl

/-- Witness for `unrecognized_ops_mean_no_restriction`. -/
theorem unrecognized_ops_mean_no_restriction_witness :
    build_filter (some [("year", .map [("between", .i 2013)])]) = none :=
  (unrecognized_ops_mean_no_restriction
    [("year", .map [("between", .i 2013)])] (by decide) (by decide)).1

/-! ## Sorting lemmas for the score order -/

theorem insScore_perm (x : ScoredPoint) (l : List ScoredPoint) :
    (insScore x l).Perm (x :: l) := by
  induction l with
  | nil => exact List.Perm.refl _
  | cons y ys ih =>
    simp only [ insScore]
    split
    · exact List.Perm.refl _
    · exact (ih.cons y).trans (List.Perm.swap x y ys)

theorem sortByScore_perm (l : List ScoredPoint) : (sortByScore l).Perm l := by
  induction l with
  | nil => exact List.Perm.refl _
  | cons x xs ih =>
    exact (insScore_perm x (sortByScore xs)).trans (ih.cons x)

theorem insScore_pairwise (x : ScoredPoint) (l : List ScoredPoint)
    (h : l.Pairwise (fun a b => b.score ≤ a.score)) :
    (insScore x l).Pairwise (fun a b => b.score ≤ a.score) := by
  induction l with
  | nil => simp [ insScore]
  | cons y ys ih =>
    rw [ List.pairwise_cons] at h
    obtain ⟨hy, hys⟩ := h
    simp only [ insScore]
    split
    · rename_i hle
      refine List.pairwise_cons.2 ⟨?_, List.pairwise_cons.2 ⟨hy, hys⟩⟩
      intro z hz
      rcases List.mem_cons.1 hz with rfl | hz'
      · exact hle
      · exact (hy z hz').trans hle
    · rename_i hnle
      refine List.pairwise_cons.2 ⟨?_, ih hys⟩
      intro z hz
      rcases List.mem_cons.1 ((insScore_perm x ys).mem_iff.1 hz) with rfl | hz'
      · exact le_of_not_le hnle
      · exact hy z hz'

theorem sortByScore_pairwise (l : List ScoredPoint) :
    (sortByScore l).Pairwise (fun a b => b.score ≤ a.score) := by
  induction l with
  | nil => simp [ sortByScore]
  | cons x xs ih => exact insScore_pairwise x (sortByScore xs) ih

/-- C7.  `QdrantVectorStore.search` with a healthy embedding collaborator
and backend returns at most `k` results, each scoring at least the
threshold, ordered by non-increasing score; an empty collection yields an
empty result list rather than an error. -/
theorem search_topk_threshold_ordered (pts : List StoredPoint)
    (sf : List Rat → List Rat → Rat) (qv : List Rat) (q : String) (k : Nat)
    (mf : Option Metadata) (thr : Rat) :
    (vectorStoreSearch pts sf (fun _ => .ok qv) true q k mf thr).length ≤ k ∧
    (∀ r ∈ vectorStoreSearch pts sf (fun _ => .ok qv) true q k mf thr,
       thr ≤ r.score) ∧
    (vectorStoreSearch pts sf (fun _ => .ok qv) true q k mf thr).Pairwise
      (fun a b => b.score ≤ a.score) ∧
    (pts = [] →
       vectorStoreSearch pts sf (fun _ => .ok qv) true q k mf thr = []) := by
  have hvs : vectorStoreSearch pts sf (fun _ => .ok qv) true q k mf thr =
      qdrantSearch pts sf qv k (build_filter mf) thr := rfl
  refine ⟨?_, ?_, ?_, ?_⟩
  · rw [ hvs]
    unfold qdrantSearch
    simp only [ List.length_take]
    exact min_le_left _ _
  · intro r hr
    rw [ hvs] at hr
    unfold qdrantSearch at hr
    have h1 := List.take_subset k _ hr
    have h2 := (sortByScore_perm _).mem_iff.1 h1
    have h3 := (List.mem_filter.1 h2).2
    simp only [ Bool.and_eq_true, decide_eq_true_eq] at h3
    exact h3.2
  · rw [ hvs]
    unfold qdrantSearch
    exact List.Pairwise.sublist (List.take_sublist k _) (sortByScore_pairwise _)
  · intro hpts
    subst hpts
    rw [ hvs]
    simp [ qdrantSearch, sortByScore]

/-- Witness for `search_topk_threshold_ordered`. -/
theorem search_topk_threshold_ordered_witness :
    vectorStoreSearch [] (fun _ _ => 0) (fun _ => .ok []) true "q" 5 none 0 = [] :=
  (search_topk_threshold_ordered [] (fun _ _ => 0) [] "q" 5 none 0).2.2.2 rfl

/-! ## Conversation state -/

theorem occursIn_mid (x y a : String) : occursIn a (x ++ a ++ y) :=
  occursIn_of_decomp x y rfl

/-- C8.  After a successful grounded query, the updated transcript (hence
the transcript substituted into any subsequent prompt) contains the query
text and answer text of that call; and after `clear_history` the
transcript substituted into the next prompt is empty. -/
theorem conversation_accumulation_and_clear (st : RAGState) (q1 : String)
    (pts : List StoredPoint) (sf : List Rat → List Rat → Rat)
    (embed : String → Except String (List Rat)) (bu : Bool)
    (mf : Option Metadata) (thr : Rat)
    (llm : LLMCall → Except String String)
    (resp : SearchResponse) (st1 : RAGState)
    (h : rag_search st q1 pts sf embed bu mf thr llm = .ok (resp, st1)) :
    (∀ q2 rs2, occursIn q1 (ragPrompt st1 q2 rs2) ∧
       occursIn resp.result (ragPrompt st1 q2 rs2)) ∧
    (∀ (st' : RAGState) (q : String) (rs : List ScoredPoint),
       ragPrompt (clear_history st') q rs =
         renderPrompt "" (process_context (rs.map ScoredPoint.payload)) q) := by
  simp only [ rag_search] at h
  cases hc : llm ⟨ragPrompt st q1
      (vectorStoreSearch pts sf embed bu q1 10 mf thr), []⟩ with
  | error e =>
    rw [ hc] at h
    exact absurd h (by simp)
  | ok ans =>
    rw [ hc] at h
    simp only [ Except.ok.injEq, Prod.mk.injEq] at h
    obtain ⟨hresp, hst1⟩ := h
    have hhist : st1.history = st.history ++ historyLine q1 resp.result := by
      rw [← hst1, ← hresp]
    have hq1 : occursIn q1 st1.history := by
      rw [ hhist]
      apply occursIn_of_decomp (st.history ++ "query: ")
        (" \n answer: " ++ resp.result)
      apply String.ext
      simp [ historyLine, String.data_append, List.append_assoc]
    have hans : occursIn resp.result st1.history := by
      rw [ hhist]
      apply occursIn_of_decomp
        (st.history ++ "query: " ++ q1 ++ " \n answer: ") ""
      apply String.ext
      simp [ historyLine, String.data_append, List.append_assoc]
    have hmid : ∀ q2 rs2, occursIn st1.history (ragPrompt st1 q2 rs2) := by
      intro q2 rs2
      apply occursIn_of_decomp
        (tplA ++ process_context (rs2.map ScoredPoint.payload) ++ tplB)
        (tplC ++ q2 ++ tplD)
      apply String.ext
      simp [ ragPrompt, renderPrompt, String.data_append, List.append_assoc]
    exact ⟨fun q2 rs2 => ⟨occursIn_trans hq1 (hmid q2 rs2),
        occursIn_trans hans (hmid q2 rs2)⟩,
      fun st' q rs => rfl⟩

/-- Witness for `conversation_accumulation_and_clear`. -/
theorem conversation_accumulation_and_clear_witness :
    occursIn "Q1" (ragPrompt ⟨"query: Q1 \n answer: A1"⟩ "Q2" []) ∧
    occursIn "A1" (ragPrompt ⟨"query: Q1 \n answer: A1"⟩ "Q2" []) :=
  (conversation_accumulation_and_clear ⟨""⟩ "Q1" [] (fun _ _ => 0)
    (fun _ => .ok []) true none 0 (fun _ => .ok "A1")
    ⟨"A1", []⟩ ⟨"query: Q1 \n answer: A1"⟩ rfl).1 "Q2" []

/-! ## Ingestion (`add_documents`) -/

theorem filter_length_split {α : Type} (p : α → Bool) (l : List α) :
    (l.filter p).length + (l.filter (fun a => !p a)).length = l.length := by
  induction l with
  | nil => rfl
  | cons x xs ih =>
    cases hp : p x <;> simp [ List.filter_cons, hp] <;> omega

/-- C5 (amended).  `add_documents` (with healthy collaborators) skips
every document with empty or whitespace-only text, upserts exactly the
remaining documents, and its printed ingestion summary reports the number
of documents added — the skipped count is not part of the summary. -/
theorem add_documents_skips_blank (md5hex : String → String)
    (embedVec : String → List Rat) (name : String) (docs : List Document) :
    ((add_documents md5hex embedVec true true name docs).points =
       (docs.filter (fun d => !isBlank d.page_content)).map
         (fun d => ⟨generate_id md5hex d, embedVec d.page_content,
                    ⟨d.page_content, d.metadata⟩⟩)) ∧
    (∀ p ∈ (add_documents md5hex embedVec true true name docs).points,
       isBlank p.payload.text = false) ∧
    ((add_documents md5hex embedVec true true name docs).points.length +
       skippedCount docs = docs.length) ∧
    ((add_documents md5hex embedVec true true name docs).summary =
       some ("Added " ++
         toString (add_documents md5hex embedVec true true name docs).points.length
         ++ " documents to collection " ++ name)) := by
  have hpts : (add_documents md5hex embedVec true true name docs).points =
      (docs.filter (fun d => !isBlank d.page_content)).map
        (fun d => ⟨generate_id md5hex d, embedVec d.page_content,
                   ⟨d.page_content, d.metadata⟩⟩) := rfl
  refine ⟨hpts, ?_, ?_, rfl⟩
  · intro p hp
    rw [ hpts] at hp
    obtain ⟨d, hd, hfd⟩ := List.mem_map.1 hp
    have hblank := (List.mem_filter.1 hd).2
    rw [← hfd]
    simpa using hblank
  · rw [ hpts, List.length_map]
    unfold skippedCount
    have hsplit := filter_length_split (fun d => !isBlank d.page_content) docs
    have hcongr : docs.filter (fun d => !(!isBlank d.page_content)) =
        docs.filter (fun d => isBlank d.page_content) :=
      List.filter_congr (fun d _ => by simp)
    rw [ hcongr] at hsplit
    exact hsplit

/-- Witness for `add_documents_skips_blank`. -/
theorem add_documents_skips_blank_witness :
    isBlank (StoredPoint.payload
      ⟨"good\x7b\x7d", [], ⟨"good", []⟩⟩).text = false :=
  (add_documents_skips_blank (fun s => s) (fun _ => []) "c"
      [⟨"", []⟩, ⟨" ", []⟩, ⟨"good", []⟩]).2.1
    ⟨"good\x7b\x7d", [], ⟨"good", []⟩⟩ (by decide)

/-- C5 (counterexample).  On a batch with two blank documents and one
non-blank one, the printed ingestion summary is `"Added 1 documents to
collection c"`: it reports the added count, and the skipped count (2)
appears nowhere in it. -/
theorem add_documents_summary_cex :
    (add_documents (fun s => s) (fun _ => []) true true "c"
        [⟨"", []⟩, ⟨" ", []⟩, ⟨"good", []⟩]).summary =
      some "Added 1 documents to collection c" ∧
    skippedCount [⟨"", []⟩, ⟨" ", []⟩, ⟨"good", []⟩] = 2 ∧
    ¬ occursIn "2" "Added 1 documents to collection c" := by
  refine ⟨by decide, by decide, by decide⟩

/-! ## Filter compiler shape -/

theorem condsForOps_length (k : String) (ops : List (String × SVal)) :
    (condsForOps k ops).length =
      (ops.filter (fun p => recognizedOp p.1)).length := by
  induction ops with
  | nil => rfl
  | cons p rest ih =>
    obtain ⟨op, val⟩ := p
    by_cases hg : op = "gte"
    · subst hg
      simp [ condsForOps, List.filter_cons, recognizedOp, ih]
    · by_cases hl : op = "lte"
      · subst hl
        simp [ condsForOps, List.filter_cons, recognizedOp, ih]
      · by_cases hgt : op = "gt"
        · subst hgt
          simp [ condsForOps, List.filter_cons, recognizedOp, ih]
        · by_cases hlt : op = "lt"
          · subst hlt
            simp [ condsForOps, List.filter_cons, recognizedOp, ih]
          · simp [ condsForOps, List.filter_cons, recognizedOp,
              hg, hl, hgt, hlt, ih]

/-- C6 (amended).  `_build_filter` compiles `None` and the empty filter to
no restriction; a scalar pair to exactly one equality condition; a
sequence pair to exactly one membership condition; an operator-object pair
to one single-bound range condition per recognized operator (`gte`, `lte`,
`gt`, `lt`) — not exactly one condition per pair; and a non-empty
condition list is wrapped in a conjunctive `must` filter. -/
theorem build_filter_shape :
    (build_filter none = none) ∧
    (build_filter (some []) = none) ∧
    (∀ k v, condsForPair k (.scalar v) = [⟨"metadata." ++ k, .matchValue v⟩]) ∧
    (∀ k vs, condsForPair k (.seq vs) = [⟨"metadata." ++ k, .matchAny vs⟩]) ∧
    (∀ k ops, (condsForOps k ops).length =
       (ops.filter (fun p => recognizedOp p.1)).length) ∧
    (∀ m, m ≠ [] → buildConds m ≠ [] →
       build_filter (some m) = some ⟨buildConds m⟩) := by
  refine ⟨rfl, rfl, fun k v => rfl, fun k vs => rfl, condsForOps_length,
    fun m h1 h2 => ?_⟩
  simp [ build_filter, h1, h2]

/-- Witness for `build_filter_shape`. -/
theorem build_filter_shape_witness :
    build_filter (some [("department", .scalar (.s "hr"))]) =
      some ⟨buildConds [("department", .scalar (.s "hr"))]⟩ :=
  build_filter_shape.2.2.2.2.2 [("department", .scalar (.s "hr"))]
    (by decide) (by decide)

/-- C6 (counterexample).  The filter `{"year": {"gte": 2010, "lte": 2020}}`
has a single key/value pair but compiles to two atomic conditions (one per
recognized operator), not exactly one. -/
theorem build_filter_two_conds_cex :
    build_filter (some [("year", .map [("gte", .i 2010), ("lte", .i 2020)])]) =
      some ⟨[⟨"metadata.year", .range .gte (.i 2010)⟩,
             ⟨"metadata.year", .range .lte (.i 2020)⟩]⟩ ∧
    (condsForPair "year"
      (.map [("gte", .i 2010), ("lte", .i 2020)])).length = 2 ∧
    (2 : Nat) ≠ 1 := by
  refine ⟨rfl, rfl, by decide⟩

/-! ## Injectivity of the canonical JSON serialization

These lemmas establish that `json.dumps(..., sort_keys=True)` (as embedded
above) is injective on canonically represented metadata, which is what
makes `_generate_id` sensitive to every change of text or metadata. -/

/-- Decimal value of a digit list, most significant first. -/
def digitsVal (l : List Char) : Nat :=
  l.foldl (fun a c => 10 * a + digVal c) 0

theorem digVal_digChar {d : Nat} (h : d < 10) : digVal (digChar d) = d := by
  interval_cases d <;> rfl

theorem digChar_isDigit {d : Nat} (h : d < 10) : (digChar d).isDigit = true := by
  interval_cases d <;> rfl

theorem natDigits_ne_nil (n : Nat) : natDigits n ≠ [] := by
  unfold natDigits
  split
  · simp
  · simp

theorem natDigits_all_digit (n : Nat) : ∀ c ∈ natDigits n, c.isDigit = true := by
  induction n using Nat.strong_induction_on with
  | _ n ih =>
    unfold natDigits
    split
    · rename_i h
      intro c hc
      rcases List.mem_singleton.1 hc with rfl
      exact digChar_isDigit h
    · rename_i h
      intro c hc
      rcases List.mem_append.1 hc with hc' | hc'
      · exact ih (n / 10) (Nat.div_lt_self (by omega) (by omega)) c hc'
      · rcases List.mem_singleton.1 hc' with rfl
        exact digChar_isDigit (Nat.mod_lt _ (by omega))

theorem digitsVal_natDigits (n : Nat) : digitsVal (natDigits n) = n := by
  induction n using Nat.strong_induction_on with
  | _ n ih =>
    unfold natDigits
    split
    · rename_i h
      simp [ digitsVal, digVal_digChar h]
    · rename_i h
      rw [ digitsVal, List.foldl_append]
      have ihn := ih (n / 10) (Nat.div_lt_self (by omega) (by omega))
      rw [ digitsVal] at ihn
      rw [ ihn]
      simp only [ List.foldl_cons, List.foldl_nil]
      rw [ digVal_digChar (Nat.mod_lt _ (by omega))]
      omega

theorem natDigits_injective {n1 n2 : Nat} (h : natDigits n1 = natDigits n2) :
    n1 = n2 := by
  rw [← digitsVal_natDigits n1, ← digitsVal_natDigits n2, h]

/-- A character of a JSON number token. -/
def numCh (c : Char) : Bool := c.isDigit || c == '-'

/-- The list is empty or starts with one of the characters that may follow
a serialized value inside a JSON document (`,`, `]`, `}`). -/
def stops : List Char → Prop
  | [] => True
  | c :: _ => c = ',' ∨ c = ']' ∨ c = '}'

/-- The list is empty or starts with a non-number character. -/
def headNotNum : List Char → Prop
  | [] => True
  | c :: _ => numCh c = false

theorem stops_headNotNum {r : List Char} (h : stops r) : headNotNum r := by
  cases r with
  | nil => trivial
  | cons c t =>
    rcases h with rfl | rfl | rfl <;> rfl

theorem num_token_split (a1 : List Char) :
    ∀ (a2 r1 r2 : List Char), a1 ++ r1 = a2 ++ r2 →
    (∀ c ∈ a1, numCh c = true) → (∀ c ∈ a2, numCh c = true) →
    headNotNum r1 → headNotNum r2 → a1 = a2 ∧ r1 = r2 := by
  induction a1 with
  | nil =>
    intro a2 r1 r2 h ha1 ha2 hr1 hr2
    cases a2 with
    | nil => exact ⟨rfl, h⟩
    | cons b bs =>
      exfalso
      simp only [ List.nil_append] at h
      subst h
      have hb := ha2 b (List.mem_cons_self b bs)
      have hfalse : numCh b = false := hr1
      rw [ hb] at hfalse
      simp at hfalse
  | cons a as ih =>
    intro a2 r1 r2 h ha1 ha2 hr1 hr2
    cases a2 with
    | nil =>
      exfalso
      simp only [ List.nil_append] at h
      have hb := ha1 a (List.mem_cons_self a as)
      rw [← h] at hr2
      have hfalse : numCh a = false := hr2
      rw [ hb] at hfalse
      simp at hfalse
    | cons b bs =>
      simp only [ List.cons_append, List.cons.injEq] at h
      obtain ⟨rfl, h2⟩ := h
      obtain ⟨he, hr⟩ := ih bs r1 r2 h2
        (fun c hc => ha1 c (List.mem_cons_of_mem _ hc))
        (fun c hc => ha2 c (List.mem_cons_of_mem _ hc)) hr1 hr2
      exact ⟨by rw [ he], hr⟩

theorem isDigit_numCh {c : Char} (h : c.isDigit = true) : numCh c = true := by
  simp [ numCh, h]

theorem intRepr_all_num (n : Int) : ∀ c ∈ intRepr n, numCh c = true := by
  cases n with
  | ofNat m =>
    intro c hc
    exact isDigit_numCh (natDigits_all_digit m c hc)
  | negSucc m =>
    intro c hc
    rcases List.mem_cons.1 hc with rfl | hc'
    · rfl
    · exact isDigit_numCh (natDigits_all_digit (m + 1) c hc')

theorem natDigits_head_ne_dash (n : Nat) :
    ∀ t, natDigits n ≠ '-' :: t := by
  intro t h
  have hd := natDigits_all_digit n '-' (by rw [ h]; exact List.mem_cons_self _ _)
  simp at hd

theorem intRepr_injective {n1 n2 : Int} (h : intRepr n1 = intRepr n2) :
    n1 = n2 := by
  cases n1 with
  | ofNat m1 =>
    cases n2 with
    | ofNat m2 =>
      rw [ show intRepr (Int.ofNat m1) = natDigits m1 from rfl,
          show intRepr (Int.ofNat m2) = natDigits m2 from rfl] at h
      rw [ natDigits_injective h]
    | negSucc m2 =>
      exact absurd h (natDigits_head_ne_dash m1 _)
  | negSucc m1 =>
    cases n2 with
    | ofNat m2 =>
      exact absurd h.symm (natDigits_head_ne_dash m2 _)
    | negSucc m2 =>
      simp only [ intRepr, List.cons.injEq, true_and] at h
      have hm := natDigits_injective h
      have hm2 : m1 = m2 := by omega
      rw [ hm2]

theorem intRepr_split {n1 n2 : Int} {r1 r2 : List Char}
    (h : intRepr n1 ++ r1 = intRepr n2 ++ r2)
    (h1 : headNotNum r1) (h2 : headNotNum r2) : n1 = n2 ∧ r1 = r2 := by
  obtain ⟨ha, hr⟩ := num_token_split (intRepr n1) (intRepr n2) r1 r2 h
    (intRepr_all_num n1) (intRepr_all_num n2) h1 h2
  exact ⟨intRepr_injective ha, hr⟩

/-- The characters `escChar` maps to a two-character escape. -/
def escSet (c : Char) : Bool :=
  c == '"' || c == '\\' || c == '\n' || c == '\t' || c == '\r'

/-- The second character of a two-character escape. -/
def escCode (c : Char) : Char :=
  if c = '"' then '"'
  else if c = '\\' then '\\'
  else if c = '\n' then 'n'
  else if c = '\t' then 't'
  else 'r'

theorem escSet_cases {c : Char} (h : escSet c = true) :
    c = '"' ∨ c = '\\' ∨ c = '\n' ∨ c = '\t' ∨ c = '\r' := by
  simp only [ escSet, Bool.or_eq_true, beq_iff_eq] at h
  tauto

theorem escChar_of_escSet {c : Char} (h : escSet c = true) :
    escChar c = ['\\', escCode c] := by
  rcases escSet_cases h with rfl | rfl | rfl | rfl | rfl <;> rfl

theorem escChar_of_not_escSet {c : Char} (h : escSet c = false) :
    escChar c = [c] := by
  simp only [ escSet, Bool.or_eq_false_iff, beq_eq_false_iff_ne, ne_eq] at h
  obtain ⟨⟨⟨⟨h1, h2⟩, h3⟩, h4⟩, h5⟩ := h
  simp [ escChar, h1, h2, h3, h4, h5]

theorem escCode_inj {c1 c2 : Char} (h1 : escSet c1 = true)
    (h2 : escSet c2 = true) (h : escCode c1 = escCode c2) : c1 = c2 := by
  rcases escSet_cases h1 with rfl | rfl | rfl | rfl | rfl <;>
    rcases escSet_cases h2 with rfl | rfl | rfl | rfl | rfl <;>
    simp_all [ escCode]

theorem escChar_head_ne_quote (c : Char) :
    ∃ d t, escChar c = d :: t ∧ d ≠ '"' := by
  cases he : escSet c with
  | true =>
    exact ⟨'\\', [escCode c], escChar_of_escSet he, by decide⟩
  | false =>
    refine ⟨c, [], escChar_of_not_escSet he, ?_⟩
    simp only [ escSet, Bool.or_eq_false_iff, beq_eq_false_iff_ne, ne_eq] at he
    exact he.1.1.1.1

theorem esc_split (s1 : List Char) : ∀ (s2 r1 r2 : List Char),
    escStr s1 ++ '"' :: r1 = escStr s2 ++ '"' :: r2 → s1 = s2 ∧ r1 = r2 := by
  induction s1 with
  | nil =>
    intro s2 r1 r2 h
    cases s2 with
    | nil =>
      simp only [ escStr, List.nil_append, List.cons.injEq, true_and] at h
      exact ⟨rfl, h⟩
    | cons c cs =>
      exfalso
      obtain ⟨d, t, hd, hdq⟩ := escChar_head_ne_quote c
      simp only [ escStr, List.nil_append, hd, List.cons_append,
        List.cons.injEq] at h
      exact hdq h.1.symm
  | cons c cs ih =>
    intro s2 r1 r2 h
    cases s2 with
    | nil =>
      exfalso
      obtain ⟨d, t, hd, hdq⟩ := escChar_head_ne_quote c
      simp only [ escStr, List.nil_append, hd, List.cons_append,
        List.cons.injEq] at h
      exact hdq h.1
    | cons c2 cs2 =>
      cases h1 : escSet c with
      | true =>
        cases h2 : escSet c2 with
        | true =>
          rw [ show escStr (c :: cs) = escChar c ++ escStr cs from rfl,
              show escStr (c2 :: cs2) = escChar c2 ++ escStr cs2 from rfl,
              escChar_of_escSet h1, escChar_of_escSet h2] at h
          simp only [ List.cons_append, List.nil_append,
            List.cons.injEq] at h
          obtain ⟨_, hcode, htail⟩ := h
          obtain ⟨hcs, hr⟩ := ih cs2 r1 r2 (by
            simpa using htail)
          exact ⟨by rw [ escCode_inj h1 h2 hcode, hcs], hr⟩
        | false =>
          exfalso
          rw [ show escStr (c :: cs) = escChar c ++ escStr cs from rfl,
              show escStr (c2 :: cs2) = escChar c2 ++ escStr cs2 from rfl,
              escChar_of_escSet h1, escChar_of_not_escSet h2] at h
          simp only [ List.cons_append, List.nil_append,
            List.cons.injEq] at h
          have : c2 = '\\' := h.1.symm
          rw [ this] at h2
          simp [ escSet] at h2
      | false =>
        cases h2 : escSet c2 with
        | true =>
          exfalso
          rw [ show escStr (c :: cs) = escChar c ++ escStr cs from rfl,
              show escStr (c2 :: cs2) = escChar c2 ++ escStr cs2 from rfl,
              escChar_of_not_escSet h1, escChar_of_escSet h2] at h
          simp only [ List.cons_append, List.nil_append,
            List.cons.injEq] at h
          have : c = '\\' := h.1
          rw [ this] at h1
          simp [ escSet] at h1
        | false =>
          rw [ show escStr (c :: cs) = escChar c ++ escStr cs from rfl,
              show escStr (c2 :: cs2) = escChar c2 ++ escStr cs2 from rfl,
              escChar_of_not_escSet h1, escChar_of_not_escSet h2] at h
          simp only [ List.cons_append, List.nil_append,
            List.cons.injEq] at h
          obtain ⟨rfl, htail⟩ := h
          obtain ⟨hcs, hr⟩ := ih cs2 r1 r2 htail
          exact ⟨by rw [ hcs], hr⟩

theorem intRepr_head (n : Int) : ∃ c t, intRepr n = c :: t ∧ numCh c = true := by
  cases n with
  | ofNat m =>
    cases hnd : natDigits m with
    | nil => exact absurd hnd (natDigits_ne_nil m)
    | cons c t =>
      refine ⟨c, t, hnd, isDigit_numCh (natDigits_all_digit m c ?_)⟩
      rw [ hnd]
      exact List.mem_cons_self _ _
  | negSucc m => exact ⟨'-', natDigits (m + 1), rfl, rfl⟩

theorem serScalar_split (v1 v2 : SVal) (r1 r2 : List Char)
    (h : serScalar v1 ++ r1 = serScalar v2 ++ r2)
    (g1 : stops r1) (g2 : stops r2) : v1 = v2 ∧ r1 = r2 := by
  cases v1 with
  | s a =>
    cases v2 with
    | s b =>
      simp only [ serScalar, List.cons_append, List.append_assoc,
        List.singleton_append, List.cons.injEq, true_and] at h
      obtain ⟨hd, hr⟩ := esc_split a.data b.data r1 r2 h
      exact ⟨by rw [ String.ext hd], hr⟩
    | i n =>
      exfalso
      obtain ⟨c, t, hct, hnum⟩ := intRepr_head n
      simp only [ serScalar, hct, List.cons_append, List.cons.injEq] at h
      rw [← h.1] at hnum
      simp [ numCh] at hnum
    | b bv =>
      exfalso
      cases bv <;> simp [ serScalar] at h
  | i n =>
    cases v2 with
    | s b =>
      exfalso
      obtain ⟨c, t, hct, hnum⟩ := intRepr_head n
      simp only [ serScalar, hct, List.cons_append, List.cons.injEq] at h
      rw [ h.1] at hnum
      simp [ numCh] at hnum
    | i n2 =>
      obtain ⟨hn, hr⟩ := @intRepr_split n n2 r1 r2 h
        (stops_headNotNum g1) (stops_headNotNum g2)
      exact ⟨by rw [ hn], hr⟩
    | b bv =>
      exfalso
      obtain ⟨c, t, hct, hnum⟩ := intRepr_head n
      cases bv <;>
        · simp only [ serScalar, hct, List.cons_append, List.cons.injEq] at h
          rw [ h.1] at hnum
          simp [ numCh] at hnum
  | b av =>
    cases v2 with
    | s b =>
      exfalso
      cases av <;> simp [ serScalar] at h
    | i n =>
      exfalso
      obtain ⟨c, t, hct, hnum⟩ := intRepr_head n
      cases av <;>
        · simp only [ serScalar, hct, List.cons_append, List.cons.injEq] at h
          rw [← h.1] at hnum
          simp [ numCh] at hnum
    | b bv =>
      cases av <;> cases bv <;> simp_all [ serScalar]

theorem serScalar_head_not_struct (v : SVal) : ∃ c t, serScalar v = c :: t ∧
    c ≠ ']' ∧ c ≠ '}' ∧ c ≠ ',' ∧ c ≠ '[' ∧ c ≠ '{' := by
  cases v with
  | s a =>
    exact ⟨'"', escStr a.data ++ ['"'], rfl, by decide, by decide, by decide,
      by decide, by decide⟩
  | i n =>
    obtain ⟨c, t, hct, hnum⟩ := intRepr_head n
    refine ⟨c, t, hct, ?_, ?_, ?_, ?_, ?_⟩ <;>
      · intro hc
        rw [ hc] at hnum
        exact absurd hnum (by decide)
  | b bv =>
    cases bv with
    | true =>
      exact ⟨'t', ['r', 'u', 'e'], rfl, by decide, by decide, by decide,
        by decide, by decide⟩
    | false =>
      exact ⟨'f', ['a', 'l', 's', 'e'], rfl, by decide, by decide, by decide,
        by decide, by decide⟩

theorem seqInner_cons_head (y : SVal) (ys : List SVal) :
    ∃ c t, seqInner (y :: ys) = c :: t ∧ c ≠ ']' ∧ c ≠ '}' ∧ c ≠ ',' := by
  obtain ⟨c, t, hct, h1, h2, h3, _h4, _h5⟩ := serScalar_head_not_struct y
  cases ys with
  | nil => exact ⟨c, t, by simp [ seqInner, hct], h1, h2, h3⟩
  | cons y2 ys' =>
    exact ⟨c, t ++ ',' :: ' ' :: seqInner (y2 :: ys'),
      by simp [ seqInner, hct], h1, h2, h3⟩

theorem seqInner_split (xs : List SVal) : ∀ (ys : List SVal) (r1 r2 : List Char),
    seqInner xs ++ ']' :: r1 = seqInner ys ++ ']' :: r2 →
    xs = ys ∧ r1 = r2 := by
  induction xs with
  | nil =>
    intro ys r1 r2 h
    cases ys with
    | nil =>
      simp only [ seqInner, List.nil_append, List.cons.injEq, true_and] at h
      exact ⟨rfl, h⟩
    | cons y ys' =>
      exfalso
      obtain ⟨c, t, hct, h1, _, _⟩ := seqInner_cons_head y ys'
      simp only [ seqInner, List.nil_append, hct, List.cons_append,
        List.cons.injEq] at h
      exact h1 h.1.symm
  | cons x xs' ih =>
    intro ys r1 r2 h
    cases ys with
    | nil =>
      exfalso
      obtain ⟨c, t, hct, h1, _, _⟩ := seqInner_cons_head x xs'
      simp only [ seqInner, List.nil_append, hct, List.cons_append,
        List.cons.injEq] at h
      exact h1 h.1
    | cons y ys' =>
      cases xs' with
      | nil =>
        cases ys' with
        | nil =>
          simp only [ seqInner] at h
          obtain ⟨hv, hr⟩ := serScalar_split x y (']' :: r1) (']' :: r2) h
            (Or.inr (Or.inl rfl)) (Or.inr (Or.inl rfl))
          simp only [ List.cons.injEq, true_and] at hr
          exact ⟨by rw [ hv], hr⟩
        | cons y2 yt =>
          exfalso
          simp only [ seqInner, List.cons_append, List.append_assoc,
            List.cons_append] at h
          obtain ⟨hv, hr⟩ := serScalar_split x y (']' :: r1)
            (',' :: ' ' :: (seqInner (y2 :: yt) ++ ']' :: r2)) h
            (Or.inr (Or.inl rfl)) (Or.inl rfl)
          simp at hr
      | cons x2 xt =>
        cases ys' with
        | nil =>
          exfalso
          simp only [ seqInner, List.cons_append, List.append_assoc,
            List.cons_append] at h
          obtain ⟨hv, hr⟩ := serScalar_split x y
            (',' :: ' ' :: (seqInner (x2 :: xt) ++ ']' :: r1)) (']' :: r2) h
            (Or.inl rfl) (Or.inr (Or.inl rfl))
          simp at hr
        | cons y2 yt =>
          simp only [ seqInner, List.cons_append, List.append_assoc,
            List.cons_append] at h
          obtain ⟨hv, hr⟩ := serScalar_split x y
            (',' :: ' ' :: (seqInner (x2 :: xt) ++ ']' :: r1))
            (',' :: ' ' :: (seqInner (y2 :: yt) ++ ']' :: r2)) h
            (Or.inl rfl) (Or.inl rfl)
          simp only [ List.cons.injEq, true_and] at hr
          obtain ⟨hxs, hr2⟩ := ih (y2 :: yt) r1 r2 hr
          exact ⟨by rw [ hv, hxs], hr2⟩

theorem opEntry_split (k1 k2 : String × SVal) (R1 R2 : List Char)
    (h : opEntry k1 ++ R1 = opEntry k2 ++ R2) (g1 : stops R1) (g2 : stops R2) :
    k1 = k2 ∧ R1 = R2 := by
  obtain ⟨ka, va⟩ := k1
  obtain ⟨kb, vb⟩ := k2
  simp only [ opEntry, List.cons_append, List.append_assoc,
    List.cons.injEq, true_and] at h
  obtain ⟨hk, hrest⟩ := esc_split ka.data kb.data _ _ h
  simp only [ List.cons.injEq, true_and] at hrest
  obtain ⟨hv, hr⟩ := serScalar_split va vb R1 R2 hrest g1 g2
  exact ⟨by rw [ String.ext hk, hv], hr⟩

theorem opInner_cons_head (kv : String × SVal) (rest : List (String × SVal)) :
    ∃ t, opInner (kv :: rest) = '"' :: t := by
  cases rest with
  | nil => exact ⟨_, rfl⟩
  | cons kv2 rest' => exact ⟨_, rfl⟩

theorem opInner_split (xs : List (String × SVal)) :
    ∀ (ys : List (String × SVal)) (r1 r2 : List Char),
    opInner xs ++ '}' :: r1 = opInner ys ++ '}' :: r2 →
    xs = ys ∧ r1 = r2 := by
  induction xs with
  | nil =>
    intro ys r1 r2 h
    cases ys with
    | nil =>
      simp only [ opInner, List.nil_append, List.cons.injEq, true_and] at h
      exact ⟨rfl, h⟩
    | cons y ys' =>
      exfalso
      obtain ⟨t, hct⟩ := opInner_cons_head y ys'
      simp only [ opInner, List.nil_append, hct, List.cons_append,
        List.cons.injEq] at h
      exact absurd h.1 (by decide)
  | cons x xs' ih =>
    intro ys r1 r2 h
    cases ys with
    | nil =>
      exfalso
      obtain ⟨t, hct⟩ := opInner_cons_head x xs'
      simp only [ opInner, List.nil_append, hct, List.cons_append,
        List.cons.injEq] at h
      exact absurd h.1 (by decide)
    | cons y ys' =>
      cases xs' with
      | nil =>
        cases ys' with
        | nil =>
          simp only [ opInner] at h
          obtain ⟨hv, hr⟩ := opEntry_split x y ('}' :: r1) ('}' :: r2) h
            (Or.inr (Or.inr rfl)) (Or.inr (Or.inr rfl))
          simp only [ List.cons.injEq, true_and] at hr
          exact ⟨by rw [ hv], hr⟩
        | cons y2 yt =>
          exfalso
          simp only [ opInner, List.cons_append, List.append_assoc,
            List.cons_append] at h
          obtain ⟨hv, hr⟩ := opEntry_split x y ('}' :: r1)
            (',' :: ' ' :: (opInner (y2 :: yt) ++ '}' :: r2)) h
            (Or.inr (Or.inr rfl)) (Or.inl rfl)
          simp at hr
      | cons x2 xt =>
        cases ys' with
        | nil =>
          exfalso
          simp only [ opInner, List.cons_append, List.append_assoc,
            List.cons_append] at h
          obtain ⟨hv, hr⟩ := opEntry_split x y
            (',' :: ' ' :: (opInner (x2 :: xt) ++ '}' :: r1)) ('}' :: r2) h
            (Or.inl rfl) (Or.inr (Or.inr rfl))
          simp at hr
        | cons y2 yt =>
          simp only [ opInner, List.cons_append, List.append_assoc,
            List.cons_append] at h
          obtain ⟨hv, hr⟩ := opEntry_split x y
            (',' :: ' ' :: (opInner (x2 :: xt) ++ '}' :: r1))
            (',' :: ' ' :: (opInner (y2 :: yt) ++ '}' :: r2)) h
            (Or.inl rfl) (Or.inl rfl)
          simp only [ List.cons.injEq, true_and] at hr
          obtain ⟨hxs, hr2⟩ := ih (y2 :: yt) r1 r2 hr
          exact ⟨by rw [ hv, hxs], hr2⟩

/-! ## Key-sort lemmas -/

theorem insKey_perm {α : Type} (x : String × α) (l : List (String × α)) :
    (insKey x l).Perm (x :: l) := by
  induction l with
  | nil => exact List.Perm.refl _
  | cons y ys ih =>
    simp only [ insKey]
    split
    · exact List.Perm.refl _
    · exact (ih.cons y).trans (List.Perm.swap x y ys)

theorem sortByKey_perm {α : Type} (l : List (String × α)) :
    (sortByKey l).Perm l := by
  induction l with
  | nil => exact List.Perm.refl _
  | cons x xs ih =>
    exact (insKey_perm x (sortByKey xs)).trans (ih.cons x)

theorem insKey_pairwise {α : Type} (x : String × α) (l : List (String × α))
    (h : l.Pairwise (fun a b => a.1 ≤ b.1)) :
    (insKey x l).Pairwise (fun a b => a.1 ≤ b.1) := by
  induction l with
  | nil => simp [ insKey]
  | cons y ys ih =>
    rw [ List.pairwise_cons] at h
    obtain ⟨hy, hys⟩ := h
    simp only [ insKey]
    split
    · rename_i hle
      refine List.pairwise_cons.2 ⟨?_, List.pairwise_cons.2 ⟨hy, hys⟩⟩
      intro z hz
      rcases List.mem_cons.1 hz with rfl | hz'
      · exact hle
      · exact hle.trans (hy z hz')
    · rename_i hnle
      refine List.pairwise_cons.2 ⟨?_, ih hys⟩
      intro z hz
      rcases List.mem_cons.1 ((insKey_perm x ys).mem_iff.1 hz) with rfl | hz'
      · exact le_of_not_le hnle
      · exact hy z hz'

theorem sortByKey_pairwise {α : Type} (l : List (String × α)) :
    (sortByKey l).Pairwise (fun a b => a.1 ≤ b.1) := by
  induction l with
  | nil => simp [ sortByKey]
  | cons x xs ih => exact insKey_pairwise x (sortByKey xs) ih

theorem sortByKey_of_pairwise {α : Type} (l : List (String × α))
    (h : l.Pairwise (fun a b => a.1 ≤ b.1)) : sortByKey l = l := by
  induction l with
  | nil => rfl
  | cons x xs ih =>
    rw [ List.pairwise_cons] at h
    obtain ⟨hx, hxs⟩ := h
    simp only [ sortByKey, ih hxs]
    cases xs with
    | nil => rfl
    | cons y ys =>
      simp only [ insKey, if_pos (hx y (List.mem_cons_self y ys))]

/-! ## Value-level and top-level serialization splits -/

/-- Canonical representation: every nested mapping is strictly key-sorted. -/
def canonJ : JVal → Prop
  | .map kvs => kvs.Pairwise (fun a b => a.1 < b.1)
  | _ => True

theorem serJVal_split (v1 v2 : JVal) (hc1 : canonJ v1) (hc2 : canonJ v2)
    (r1 r2 : List Char) (h : serJVal v1 ++ r1 = serJVal v2 ++ r2)
    (g1 : stops r1) (g2 : stops r2) : v1 = v2 ∧ r1 = r2 := by
  cases v1 with
  | scalar a =>
    cases v2 with
    | scalar b =>
      obtain ⟨hv, hr⟩ := serScalar_split a b r1 r2 h g1 g2
      exact ⟨by rw [ hv], hr⟩
    | seq bs =>
      exfalso
      obtain ⟨c, t, hct, _, _, _, h4, _⟩ := serScalar_head_not_struct a
      simp only [ serJVal, hct, List.cons_append, List.cons.injEq] at h
      exact h4 h.1
    | map bkv =>
      exfalso
      obtain ⟨c, t, hct, _, _, _, _, h5⟩ := serScalar_head_not_struct a
      simp only [ serJVal, hct, List.cons_append, List.cons.injEq] at h
      exact h5 h.1
  | seq asq =>
    cases v2 with
    | scalar b =>
      exfalso
      obtain ⟨c, t, hct, _, _, _, h4, _⟩ := serScalar_head_not_struct b
      simp only [ serJVal, hct, List.cons_append, List.cons.injEq] at h
      exact h4 h.1.symm
    | seq bs =>
      simp only [ serJVal, List.cons_append, List.append_assoc,
        List.singleton_append, List.cons.injEq, true_and] at h
      obtain ⟨hv, hr⟩ := seqInner_split asq bs r1 r2 h
      exact ⟨by rw [ hv], hr⟩
    | map bkv =>
      exfalso
      simp only [ serJVal, List.cons_append, List.cons.injEq] at h
      exact absurd h.1 (by decide)
  | map akv =>
    cases v2 with
    | scalar b =>
      exfalso
      obtain ⟨c, t, hct, _, _, _, _, h5⟩ := serScalar_head_not_struct b
      simp only [ serJVal, hct, List.cons_append, List.cons.injEq] at h
      exact h5 h.1.symm
    | seq bs =>
      exfalso
      simp only [ serJVal, List.cons_append, List.cons.injEq] at h
      exact absurd h.1 (by decide)
    | map bkv =>
      have ha : sortByKey akv = akv :=
        sortByKey_of_pairwise akv (hc1.imp (fun hab => le_of_lt hab))
      have hb : sortByKey bkv = bkv :=
        sortByKey_of_pairwise bkv (hc2.imp (fun hab => le_of_lt hab))
      simp only [ serJVal, ha, hb, List.cons_append, List.append_assoc,
        List.singleton_append, List.cons.injEq, true_and] at h
      obtain ⟨hv, hr⟩ := opInner_split akv bkv r1 r2 h
      exact ⟨by rw [ hv], hr⟩

theorem topEntry_split (k1 k2 : String × JVal)
    (hc1 : canonJ k1.2) (hc2 : canonJ k2.2) (R1 R2 : List Char)
    (h : topEntry k1 ++ R1 = topEntry k2 ++ R2) (g1 : stops R1) (g2 : stops R2) :
    k1 = k2 ∧ R1 = R2 := by
  obtain ⟨ka, va⟩ := k1
  obtain ⟨kb, vb⟩ := k2
  simp only [ topEntry, List.cons_append, List.append_assoc,
    List.cons.injEq, true_and] at h
  obtain ⟨hk, hrest⟩ := esc_split ka.data kb.data _ _ h
  simp only [ List.cons.injEq, true_and] at hrest
  obtain ⟨hv, hr⟩ := serJVal_split va vb hc1 hc2 R1 R2 hrest g1 g2
  exact ⟨by rw [ String.ext hk, hv], hr⟩

theorem topInner_cons_head (kv : String × JVal) (rest : Metadata) :
    ∃ t, topInner (kv :: rest) = '"' :: t := by
  cases rest with
  | nil => exact ⟨_, rfl⟩
  | cons kv2 rest' => exact ⟨_, rfl⟩

theorem topInner_split (xs : Metadata) : ∀ (ys : Metadata),
    (∀ kv ∈ xs, canonJ kv.2) → (∀ kv ∈ ys, canonJ kv.2) →
    ∀ (r1 r2 : List Char),
    topInner xs ++ '}' :: r1 = topInner ys ++ '}' :: r2 →
    xs = ys ∧ r1 = r2 := by
  induction xs with
  | nil =>
    intro ys _ _ r1 r2 h
    cases ys with
    | nil =>
      simp only [ topInner, List.nil_append, List.cons.injEq, true_and] at h
      exact ⟨rfl, h⟩
    | cons y ys' =>
      exfalso
      obtain ⟨t, hct⟩ := topInner_cons_head y ys'
      simp only [ topInner, List.nil_append, hct, List.cons_append,
        List.cons.injEq] at h
      exact absurd h.1 (by decide)
  | cons x xs' ih =>
    intro ys hcx hcy r1 r2 h
    cases ys with
    | nil =>
      exfalso
      obtain ⟨t, hct⟩ := topInner_cons_head x xs'
      simp only [ topInner, List.nil_append, hct, List.cons_append,
        List.cons.injEq] at h
      exact absurd h.1 (by decide)
    | cons y ys' =>
      have hcx1 : canonJ x.2 := hcx x (List.mem_cons_self x xs')
      have hcy1 : canonJ y.2 := hcy y (List.mem_cons_self y ys')
      have hcx' : ∀ kv ∈ xs', canonJ kv.2 :=
        fun kv hkv => hcx kv (List.mem_cons_of_mem _ hkv)
      have hcy' : ∀ kv ∈ ys', canonJ kv.2 :=
        fun kv hkv => hcy kv (List.mem_cons_of_mem _ hkv)
      cases xs' with
      | nil =>
        cases ys' with
        | nil =>
          simp only [ topInner] at h
          obtain ⟨hv, hr⟩ := topEntry_split x y hcx1 hcy1
            ('}' :: r1) ('}' :: r2) h (Or.inr (Or.inr rfl)) (Or.inr (Or.inr rfl))
          simp only [ List.cons.injEq, true_and] at hr
          exact ⟨by rw [ hv], hr⟩
        | cons y2 yt =>
          exfalso
          simp only [ topInner, List.cons_append, List.append_assoc,
            List.cons_append] at h
          obtain ⟨hv, hr⟩ := topEntry_split x y hcx1 hcy1 ('}' :: r1)
            (',' :: ' ' :: (topInner (y2 :: yt) ++ '}' :: r2)) h
            (Or.inr (Or.inr rfl)) (Or.inl rfl)
          simp at hr
      | cons x2 xt =>
        cases ys' with
        | nil =>
          exfalso
          simp only [ topInner, List.cons_append, List.append_assoc,
            List.cons_append] at h
          obtain ⟨hv, hr⟩ := topEntry_split x y hcx1 hcy1
            (',' :: ' ' :: (topInner (x2 :: xt) ++ '}' :: r1)) ('}' :: r2) h
            (Or.inl rfl) (Or.inr (Or.inr rfl))
          simp at hr
        | cons y2 yt =>
          simp only [ topInner, List.cons_append, List.append_assoc,
            List.cons_append] at h
          obtain ⟨hv, hr⟩ := topEntry_split x y hcx1 hcy1
            (',' :: ' ' :: (topInner (x2 :: xt) ++ '}' :: r1))
            (',' :: ' ' :: (topInner (y2 :: yt) ++ '}' :: r2)) h
            (Or.inl rfl) (Or.inl rfl)
          simp only [ List.cons.injEq, true_and] at hr
          obtain ⟨hxs, hr2⟩ := ih (y2 :: yt) hcx' hcy' r1 r2 hr
          exact ⟨by rw [ hv, hxs], hr2⟩

/-- Canonical metadata: strictly key-sorted, nested mappings canonical. -/
def canonMeta (m : Metadata) : Prop :=
  m.Pairwise (fun a b => a.1 < b.1) ∧ ∀ kv ∈ m, canonJ kv.2

theorem serMeta_inj {m1 m2 : Metadata} (h1 : canonMeta m1) (h2 : canonMeta m2)
    (h : serMeta m1 = serMeta m2) : m1 = m2 := by
  unfold serMeta at h
  rw [ sortByKey_of_pairwise m1 (h1.1.imp (fun hab => le_of_lt hab)),
      sortByKey_of_pairwise m2 (h2.1.imp (fun hab => le_of_lt hab))] at h
  simp only [ List.cons.injEq, true_and] at h
  exact (topInner_split m1 m2 h1.2 h2.2 [] [] h).1

theorem sortByKey_eq_of_perm {α : Type} (m1 m2 : List (String × α))
    (hperm : m1.Perm m2) (hnd : (m1.map Prod.fst).Nodup) :
    sortByKey m1 = sortByKey m2 := by
  have hp : (sortByKey m1).Perm (sortByKey m2) :=
    (sortByKey_perm m1).trans (hperm.trans (sortByKey_perm m2).symm)
  have hsymm : Symmetric (fun a b : String × α => a.1 ≠ b.1) :=
    fun _ _ hab => Ne.symm hab
  have hne_m1 : m1.Pairwise (fun a b => a.1 ≠ b.1) := List.pairwise_map.1 hnd
  have hnd2 : (m2.map Prod.fst).Nodup := (hperm.map Prod.fst).nodup hnd
  have hne_m2 : m2.Pairwise (fun a b => a.1 ≠ b.1) := List.pairwise_map.1 hnd2
  have hne1 : (sortByKey m1).Pairwise (fun a b => a.1 ≠ b.1) :=
    (((sortByKey_perm m1).pairwise_iff (fun hab => hsymm hab)).2 hne_m1)
  have hne2 : (sortByKey m2).Pairwise (fun a b => a.1 ≠ b.1) :=
    (((sortByKey_perm m2).pairwise_iff (fun hab => hsymm hab)).2 hne_m2)
  have hlt1 : (sortByKey m1).Pairwise (fun a b => a.1 < b.1) :=
    ((sortByKey_pairwise m1).and hne1).imp
      (fun hab => lt_of_le_of_ne hab.1 hab.2)
  have hlt2 : (sortByKey m2).Pairwise (fun a b => a.1 < b.1) :=
    ((sortByKey_pairwise m2).and hne2).imp
      (fun hab => lt_of_le_of_ne hab.1 hab.2)
  haveI : IsAntisymm (String × α) (fun a b => a.1 < b.1) :=
    ⟨fun a b hab hba => absurd hab (lt_asymm hba)⟩
  exact List.eq_of_perm_of_sorted hp hlt1 hlt2

/-- C3.  `_generate_id` is a pure function (two computations on the same
`(text, metadata)` pair agree), and it is insensitive to metadata key
insertion order: permuting the key/value pairs of a metadata mapping (with
distinct keys) leaves the id unchanged, because keys are canonically
sorted before hashing. -/
theorem generate_id_pure_key_order_insensitive (md5hex : String → String)
    (t : String) (m1 m2 : Metadata) (hperm : m1.Perm m2)
    (hnd : (m1.map Prod.fst).Nodup) :
    generate_id md5hex ⟨t, m1⟩ = generate_id md5hex ⟨t, m1⟩ ∧
    generate_id md5hex ⟨t, m1⟩ = generate_id md5hex ⟨t, m2⟩ := by
  refine ⟨rfl, ?_⟩
  unfold generate_id digestInput jsonDumpsSorted serMeta
  rw [ sortByKey_eq_of_perm m1 m2 hperm hnd]

/-- Witness for `generate_id_pure_key_order_insensitive`. -/
theorem generate_id_pure_key_order_insensitive_witness :
    generate_id (fun s => s)
        ⟨"t", [("department", .scalar (.s "hr")), ("year", .scalar (.i 2013))]⟩ =
      generate_id (fun s => s)
        ⟨"t", [("year", .scalar (.i 2013)), ("department", .scalar (.s "hr"))]⟩ :=
  (generate_id_pure_key_order_insensitive (fun s => s) "t"
    [("department", .scalar (.s "hr")), ("year", .scalar (.i 2013))]
    [("year", .scalar (.i 2013)), ("department", .scalar (.s "hr"))]
    (List.Perm.swap ("year", JVal.scalar (SVal.i 2013))
      ("department", JVal.scalar (SVal.s "hr")) [])
    (by decide)).2

/-- C4.  For canonically represented metadata and an injective digest,
`_generate_id` is sensitive to both inputs: changing the metadata while
keeping the text fixed changes the id, and changing the text while keeping
the metadata fixed changes the id.  (The source digest is `hashlib.md5`;
the spec treats digest collisions as an accepted risk, so sensitivity is
proved for the digest input, parametrically in an injective digest.) -/
theorem generate_id_sensitive (md5hex : String → String)
    (hinj : Function.Injective md5hex) (t t' : String) (m1 m2 : Metadata)
    (hc1 : canonMeta m1) (hc2 : canonMeta m2) :
    (m1 ≠ m2 → generate_id md5hex ⟨t, m1⟩ ≠ generate_id md5hex ⟨t, m2⟩) ∧
    (t ≠ t' → generate_id md5hex ⟨t, m1⟩ ≠ generate_id md5hex ⟨t', m1⟩) := by
  constructor
  · intro hne heq
    apply hne
    have hdig := hinj heq
    unfold digestInput at hdig
    have hdata := congrArg String.data hdig
    rw [ String.data_append, String.data_append] at hdata
    have hser : serMeta m1 = serMeta m2 := List.append_cancel_left hdata
    exact serMeta_inj hc1 hc2 hser
  · intro hne heq
    apply hne
    have hdig := hinj heq
    unfold digestInput at hdig
    have hdata := congrArg String.data hdig
    rw [ String.data_append, String.data_append] at hdata
    exact String.ext (List.append_cancel_right hdata)

/-- Witness for `generate_id_sensitive`. -/
theorem generate_id_sensitive_witness :
    (generate_id (fun s => s) ⟨"t", [("year", .scalar (.i 2013))]⟩ ≠
       generate_id (fun s => s) ⟨"t", [("year", .scalar (.i 2014))]⟩) ∧
    (generate_id (fun s => s) ⟨"t", [("year", .scalar (.i 2013))]⟩ ≠
       generate_id (fun s => s) ⟨"u", [("year", .scalar (.i 2013))]⟩) := by
  have hc1 : canonMeta [("year", JVal.scalar (.i 2013))] :=
    ⟨by simp, by
      intro kv hkv
      rcases List.mem_singleton.1 hkv with rfl
      trivial⟩
  have hc2 : canonMeta [("year", JVal.scalar (.i 2014))] :=
    ⟨by simp, by
      intro kv hkv
      rcases List.mem_singleton.1 hkv with rfl
      trivial⟩
  exact ⟨(generate_id_sensitive (fun s => s) (fun _ _ h => h) "t" "t"
            [("year", .scalar (.i 2013))] [("year", .scalar (.i 2014))]
            hc1 hc2).1 (by decide),
         (generate_id_sensitive (fun s => s) (fun _ _ h => h) "t" "u"
            [("year", .scalar (.i 2013))] [("year", .scalar (.i 2013))]
            hc1 hc1).2 (by decide)⟩

/-! ## Separator counting -/

theorem sepChars_prefix_iff {l : List Char} :
    sepChars <+: l ↔ ∃ t, l = '\n' :: '-' :: '-' :: '-' :: '\n' :: t := by
  constructor
  · rintro ⟨t, ht⟩
    exact ⟨t, ht.symm⟩
  · rintro ⟨t, rfl⟩
    exact ⟨t, rfl⟩

theorem hasTriple_of_triple {l : List Char} {j : Nat}
    (h1 : l[j]? = some '-') (h2 : l[j+1]? = some '-')
    (h3 : l[j+2]? = some '-') : hasTriple l = true := by
  induction l generalizing j with
  | nil => simp at h1
  | cons c rest ih =>
    cases j with
    | zero =>
      simp only [ List.getElem?_cons_zero, Option.some.injEq] at h1
      simp only [ List.getElem?_cons_succ] at h2 h3
      cases rest with
      | nil => simp at h2
      | cons c2 rest2 =>
        cases rest2 with
        | nil => simp at h3
        | cons c3 rest3 =>
          simp only [ List.getElem?_cons_zero, Option.some.injEq] at h2
          simp only [ List.getElem?_cons_succ,
            List.getElem?_cons_zero, Option.some.injEq] at h3
          subst h1
          subst h2
          subst h3
          simp [ hasTriple]
    | succ j' =>
      simp only [ List.getElem?_cons_succ] at h1 h2 h3
      have ht := ih h1 h2 h3
      simp [ hasTriple, ht]

theorem no_triple_at {l : List Char} (h : hasTriple l = false) (j : Nat) :
    ¬ (l[j]? = some '-' ∧ l[j+1]? = some '-' ∧ l[j+2]? = some '-') := by
  rintro ⟨h1, h2, h3⟩
  rw [ hasTriple_of_triple h1 h2 h3] at h
  exact absurd h (by decide)

theorem getElem?_append_left' {α : Type} {l₁ l₂ : List α} {n : Nat}
    (h : n < l₁.length) : (l₁ ++ l₂)[n]? = l₁[n]? := by
  rw [ List.getElem?_append]
  exact if_pos h

theorem occCount_eq_zero {l : List Char} (h : hasTriple l = false) :
    occCount sepChars l = 0 := by
  unfold occCount
  rw [ List.countP_eq_zero]
  intro i _
  simp only [ decide_eq_true_eq]
  intro hpre
  obtain ⟨t, ht⟩ := sepChars_prefix_iff.1 hpre
  have e1 : l[i+1]? = some '-' := by
    rw [← List.getElem?_drop l i 1, ht]
    rfl
  have e2 : l[i+2]? = some '-' := by
    rw [← List.getElem?_drop l i 2, ht]
    rfl
  have e3 : l[i+3]? = some '-' := by
    rw [← List.getElem?_drop l i 3, ht]
    rfl
  exact no_triple_at h (i + 1) ⟨e1, e2, e3⟩

theorem countP_range_eq (m n : Nat) :
    (List.range n).countP (fun i => i == m) = if m < n then 1 else 0 := by
  induction n with
  | zero => rfl
  | succ n ih =>
    rw [ List.range_succ, List.countP_append, ih]
    by_cases h : m < n
    · rw [ if_pos h, if_pos (by omega)]
      have hne : (n == m) = false := by
        simp only [ beq_eq_false_iff_ne, ne_eq]
        omega
      simp [ List.countP_cons, hne]
    · by_cases he : m = n
      · subst he
        rw [ if_neg h, if_pos (by omega)]
        simp [ List.countP_cons]
      · rw [ if_neg h, if_neg (by omega)]
        have hne : (n == m) = false := by
          simp only [ beq_eq_false_iff_ne, ne_eq]
          omega
        simp [ List.countP_cons, hne]

theorem occCount_join {s1 s2 : List Char}
    (h1 : hasTriple s1 = false) (h2 : hasTriple s2 = false) :
    occCount sepChars (s1 ++ sepChars ++ s2) = 1 := by
  have hlen : (s1 ++ sepChars ++ s2).length = s1.length + 5 + s2.length := by
    simp [ List.length_append, sepChars]
    omega
  have hsep : ∀ j, j < 5 →
      (s1 ++ sepChars ++ s2)[s1.length + j]? = sepChars[j]? := by
    intro j hj
    rw [ getElem?_append_left' (show s1.length + j < (s1 ++ sepChars).length by
      simp [ List.length_append, sepChars]
      omega)]
    rw [ List.getElem?_append_right (by omega)]
    congr 1
    omega
  have hleft : ∀ p, p < s1.length →
      (s1 ++ sepChars ++ s2)[p]? = s1[p]? := by
    intro p hp
    rw [ List.append_assoc]
    exact getElem?_append_left' hp
  have hright : ∀ p, s1.length + 5 ≤ p →
      (s1 ++ sepChars ++ s2)[p]? = s2[p - (s1.length + 5)]? := by
    intro p hp
    rw [ List.getElem?_append_right
      (show (s1 ++ sepChars).length ≤ p by
        simp [ List.length_append, sepChars]
        omega)]
    congr 1
    simp [ List.length_append, sepChars]
  have hn1v : (s1 ++ sepChars ++ s2)[s1.length]? = some '\n' := by
    have := hsep 0 (by omega)
    simpa using this
  have hn4v : (s1 ++ sepChars ++ s2)[s1.length + 4]? = some '\n' := by
    have := hsep 4 (by omega)
    simpa using this
  have hmem : ∀ i, i ∈ List.range ((s1 ++ sepChars ++ s2).length + 1) →
      (decide (sepChars <+: (s1 ++ sepChars ++ s2).drop i)) = (i == s1.length) := by
    intro i _
    by_cases hieq : i = s1.length
    · subst hieq
      have hdrop : (s1 ++ sepChars ++ s2).drop s1.length = sepChars ++ s2 := by
        rw [ List.append_assoc]
        exact List.drop_left s1 (sepChars ++ s2)
      rw [ hdrop]
      simp [ List.prefix_append]
    · have hne : (i == s1.length) = false := by
        simp only [ beq_eq_false_iff_ne, ne_eq]
        exact hieq
      rw [ hne]
      rw [ decide_eq_false_iff_not]
      intro hpre
      obtain ⟨t, ht⟩ := sepChars_prefix_iff.1 hpre
      have d1 : (s1 ++ sepChars ++ s2)[i+1]? = some '-' := by
        rw [← List.getElem?_drop (s1 ++ sepChars ++ s2) i 1, ht]
        rfl
      have d2 : (s1 ++ sepChars ++ s2)[i+2]? = some '-' := by
        rw [← List.getElem?_drop (s1 ++ sepChars ++ s2) i 2, ht]
        rfl
      have d3 : (s1 ++ sepChars ++ s2)[i+3]? = some '-' := by
        rw [← List.getElem?_drop (s1 ++ sepChars ++ s2) i 3, ht]
        rfl
      by_cases hA : i + 3 < s1.length
      · have a1 : s1[i+1]? = some '-' := by
          rw [← hleft (i+1) (by omega)]
          exact d1
        have a2 : s1[i+1+1]? = some '-' := by
          rw [← hleft (i+2) (by omega)]
          exact d2
        have a3 : s1[i+1+2]? = some '-' := by
          rw [← hleft (i+3) (by omega)]
          exact d3
        exact no_triple_at h1 (i + 1) ⟨a1, a2, a3⟩
      · by_cases hB : s1.length + 5 ≤ i + 1
        · have b1 : s2[i + 1 - (s1.length + 5)]? = some '-' := by
            rw [← hright (i+1) (by omega)]
            exact d1
          have b2 : s2[i + 1 - (s1.length + 5) + 1]? = some '-' := by
            have := d2
            rw [ hright (i+2) (by omega)] at this
            rw [ show i + 2 - (s1.length + 5) = i + 1 - (s1.length + 5) + 1 by
              omega] at this
            exact this
          have b3 : s2[i + 1 - (s1.length + 5) + 2]? = some '-' := by
            have := d3
            rw [ hright (i+3) (by omega)] at this
            rw [ show i + 3 - (s1.length + 5) = i + 1 - (s1.length + 5) + 2 by
              omega] at this
            exact this
          exact no_triple_at h2 (i + 1 - (s1.length + 5)) ⟨b1, b2, b3⟩
        · have ne1 : i + 1 ≠ s1.length := by
            intro he
            rw [ he, hn1v] at d1
            exact absurd d1 (by decide)
          have ne2 : i + 2 ≠ s1.length := by
            intro he
            rw [ he, hn1v] at d2
            exact absurd d2 (by decide)
          have ne3 : i + 3 ≠ s1.length := by
            intro he
            rw [ he, hn1v] at d3
            exact absurd d3 (by decide)
          have ne4 : i + 1 ≠ s1.length + 4 := by
            intro he
            rw [ he, hn4v] at d1
            exact absurd d1 (by decide)
          have ne5 : i + 2 ≠ s1.length + 4 := by
            intro he
            rw [ he, hn4v] at d2
            exact absurd d2 (by decide)
          have ne6 : i + 3 ≠ s1.length + 4 := by
            intro he
            rw [ he, hn4v] at d3
            exact absurd d3 (by decide)
          omega
  unfold occCount
  rw [ List.countP_congr (fun i hi => by rw [ hmem i hi])]
  rw [ countP_range_eq]
  rw [ if_pos (by omega)]

theorem occCount_zero_quoted {x y : List Char}
    (hx : hasTriple x = false) (hy : hasTriple y = false) :
    occCount sepChars (x ++ ('"' :: '-' :: '-' :: '-' :: '"' :: []) ++ y) = 0 := by
  unfold occCount
  rw [ List.countP_eq_zero]
  intro i _
  simp only [ decide_eq_true_eq]
  intro hpre
  obtain ⟨t, ht⟩ := sepChars_prefix_iff.1 hpre
  have hmid : ∀ j, j < 5 →
      (x ++ ('"' :: '-' :: '-' :: '-' :: '"' :: []) ++ y)[x.length + j]? =
        ('"' :: '-' :: '-' :: '-' :: '"' :: ([] : List Char))[j]? := by
    intro j hj
    rw [ getElem?_append_left'
      (show x.length + j < (x ++ ('"' :: '-' :: '-' :: '-' :: '"' :: [])).length by
        simp [ List.length_append]
        omega)]
    rw [ List.getElem?_append_right (by omega)]
    congr 1
    omega
  have hleft : ∀ p, p < x.length →
      (x ++ ('"' :: '-' :: '-' :: '-' :: '"' :: []) ++ y)[p]? = x[p]? := by
    intro p hp
    rw [ List.append_assoc]
    exact getElem?_append_left' hp
  have hright : ∀ p, x.length + 5 ≤ p →
      (x ++ ('"' :: '-' :: '-' :: '-' :: '"' :: []) ++ y)[p]? =
        y[p - (x.length + 5)]? := by
    intro p hp
    rw [ List.getElem?_append_right
      (show (x ++ ('"' :: '-' :: '-' :: '-' :: '"' :: [])).length ≤ p by
        simp [ List.length_append]
        omega)]
    congr 1
    simp [ List.length_append]
  have hq0 : (x ++ ('"' :: '-' :: '-' :: '-' :: '"' :: []) ++ y)[x.length]? =
      some '"' := by
    have := hmid 0 (by omega)
    simpa using this
  have hq4 : (x ++ ('"' :: '-' :: '-' :: '-' :: '"' :: []) ++ y)[x.length + 4]? =
      some '"' := by
    have := hmid 4 (by omega)
    simpa using this
  have d0 : (x ++ ('"' :: '-' :: '-' :: '-' :: '"' :: []) ++ y)[i+0]? =
      some '\n' := by
    rw [← List.getElem?_drop (x ++ ('"' :: '-' :: '-' :: '-' :: '"' :: []) ++ y) i 0,
      ht]
    rfl
  rw [ Nat.add_zero] at d0
  have d1 : (x ++ ('"' :: '-' :: '-' :: '-' :: '"' :: []) ++ y)[i+1]? =
      some '-' := by
    rw [← List.getElem?_drop (x ++ ('"' :: '-' :: '-' :: '-' :: '"' :: []) ++ y) i 1,
      ht]
    rfl
  have d2 : (x ++ ('"' :: '-' :: '-' :: '-' :: '"' :: []) ++ y)[i+2]? =
      some '-' := by
    rw [← List.getElem?_drop (x ++ ('"' :: '-' :: '-' :: '-' :: '"' :: []) ++ y) i 2,
      ht]
    rfl
  have d3 : (x ++ ('"' :: '-' :: '-' :: '-' :: '"' :: []) ++ y)[i+3]? =
      some '-' := by
    rw [← List.getElem?_drop (x ++ ('"' :: '-' :: '-' :: '-' :: '"' :: []) ++ y) i 3,
      ht]
    rfl
  by_cases hA : i + 3 < x.length
  · have a1 : x[i+1]? = some '-' := by
      rw [← hleft (i+1) (by omega)]
      exact d1
    have a2 : x[i+1+1]? = some '-' := by
      rw [← hleft (i+2) (by omega)]
      exact d2
    have a3 : x[i+1+2]? = some '-' := by
      rw [← hleft (i+3) (by omega)]
      exact d3
    exact no_triple_at hx (i + 1) ⟨a1, a2, a3⟩
  · by_cases hB : x.length + 5 ≤ i + 1
    · have b1 : y[i + 1 - (x.length + 5)]? = some '-' := by
        rw [← hright (i+1) (by omega)]
        exact d1
      have b2 : y[i + 1 - (x.length + 5) + 1]? = some '-' := by
        have hb := d2
        rw [ hright (i+2) (by omega)] at hb
        rw [ show i + 2 - (x.length + 5) = i + 1 - (x.length + 5) + 1 by
          omega] at hb
        exact hb
      have b3 : y[i + 1 - (x.length + 5) + 2]? = some '-' := by
        have hb := d3
        rw [ hright (i+3) (by omega)] at hb
        rw [ show i + 3 - (x.length + 5) = i + 1 - (x.length + 5) + 2 by
          omega] at hb
        exact hb
      exact no_triple_at hy (i + 1 - (x.length + 5)) ⟨b1, b2, b3⟩
    · have ne0 : i ≠ x.length := by
        intro he
        rw [ he, hq0] at d0
        exact absurd d0 (by decide)
      have ne1 : i + 1 ≠ x.length := by
        intro he
        rw [ he, hq0] at d1
        exact absurd d1 (by decide)
      have ne2 : i + 2 ≠ x.length := by
        intro he
        rw [ he, hq0] at d2
        exact absurd d2 (by decide)
      have ne3 : i + 3 ≠ x.length := by
        intro he
        rw [ he, hq0] at d3
        exact absurd d3 (by decide)
      have ne4 : i + 1 ≠ x.length + 4 := by
        intro he
        rw [ he, hq4] at d1
        exact absurd d1 (by decide)
      have ne5 : i + 2 ≠ x.length + 4 := by
        intro he
        rw [ he, hq4] at d2
        exact absurd d2 (by decide)
      have ne6 : i + 3 ≠ x.length + 4 := by
        intro he
        rw [ he, hq4] at d3
        exact absurd d3 (by decide)
      omega

theorem occursIn_sep_false {T : List Char} (h : occCount sepChars T = 0)
    (hocc : sepChars <:+: T) : False := by
  obtain ⟨s, t, hst⟩ := hocc
  unfold occCount at h
  rw [ List.countP_eq_zero] at h
  have hmem : s.length ∈ List.range (T.length + 1) := by
    rw [ List.mem_range, ← hst]
    simp [ List.length_append]
    omega
  apply h s.length hmem
  simp only [ decide_eq_true_eq]
  rw [← hst, List.append_assoc, List.drop_left]
  exact List.prefix_append _ _

set_option maxRecDepth 16384 in
theorem sep_not_in_template : ¬ occursIn "\n---\n" promptTemplate := by
  intro hocc
  have hs : promptTemplate = tplAa ++ "\"---\"" ++
      (tplAb ++ "{context}" ++ tplB ++ "{history}" ++ tplC ++ "{question}"
        ++ tplD) := by
    apply String.ext
    simp [ promptTemplate, tplA, String.data_append, List.append_assoc]
  have hdata : promptTemplate.data = tplAa.data ++
      ('"' :: '-' :: '-' :: '-' :: '"' :: []) ++
      (tplAb ++ "{context}" ++ tplB ++ "{history}" ++ tplC ++ "{question}"
        ++ tplD).data := by
    rw [ hs, String.data_append, String.data_append]
  have hzero : occCount sepChars promptTemplate.data = 0 := by
    rw [ hdata]
    exact occCount_zero_quoted (by decide) (by decide)
  exact occursIn_sep_false hzero hocc

set_option maxRecDepth 16384 in
/-- C9 (amended).  When neither rendered segment contains three
consecutive dashes, assembling two results yields a context string with
exactly one `"\n---\n"` separator occurrence and assembling one result
yields zero; the prompt template's instruction mentions the separator core
`"---"` (quoted), not the full `"\n---\n"` string. -/
theorem context_separator_count (t1 t2 : String) (m1 m2 : Metadata)
    (h1 : hasTriple (renderSegment t1 m1).data = false)
    (h2 : hasTriple (renderSegment t2 m2).data = false) :
    occCount sepChars (process_context [⟨t1, m1⟩, ⟨t2, m2⟩]).data = 1 ∧
    occCount sepChars (process_context [⟨t1, m1⟩]).data = 0 ∧
    occursIn "---" promptTemplate := by
  refine ⟨?_, ?_, ?_⟩
  · have hdata : (process_context [⟨t1, m1⟩, ⟨t2, m2⟩]).data =
        (renderSegment t1 m1).data ++ sepChars ++ (renderSegment t2 m2).data := by
      show ((renderSegment t1 m1 ++ "\n---\n") ++ renderSegment t2 m2).data = _
      rw [ String.data_append, String.data_append]
      rfl
    rw [ hdata]
    exact occCount_join h1 h2
  · have hdata : (process_context [⟨t1, m1⟩]).data =
        (renderSegment t1 m1).data := rfl
    rw [ hdata]
    exact occCount_eq_zero h1
  · have ha : occursIn "---" tplA := by
      apply occursIn_of_decomp (tplAa ++ "\"") ("\"" ++ tplAb)
      apply String.ext
      have e1 : ("\"---\"" : String).data = '"' :: '-' :: '-' :: '-' :: '"' :: [] :=
        rfl
      have e2 : ("\"" : String).data = ['"'] := rfl
      have e3 : ("---" : String).data = ['-', '-', '-'] := rfl
      simp [ tplA, String.data_append, List.append_assoc, e1, e2, e3]
    have hb : occursIn tplA promptTemplate := by
      apply occursIn_of_decomp ""
        ("{context}" ++ tplB ++ "{history}" ++ tplC ++ "{question}" ++ tplD)
      apply String.ext
      simp [ promptTemplate, String.data_append, List.append_assoc]
    exact occursIn_trans ha hb

/-- Witness for `context_separator_count`. -/
theorem context_separator_count_witness :
    occCount sepChars (process_context [⟨"alpha", []⟩, ⟨"beta", []⟩]).data = 1 ∧
    occCount sepChars (process_context [⟨"alpha", []⟩]).data = 0 ∧
    occursIn "---" promptTemplate :=
  context_separator_count "alpha" "beta" [] [] (by decide) (by decide)

set_option maxRecDepth 16384 in
/-- C9 (counterexample).  A single retrieved result whose text contains
`"\n---\n"` assembles to a context with one separator occurrence instead
of zero; and the full separator string `"\n---\n"` does not occur in the
prompt template (the instruction only mentions `"---"`). -/
theorem context_separator_cex :
    occCount sepChars (process_context [⟨"a\n---\nb", []⟩]).data = 1 ∧
    (1 : Nat) ≠ 0 ∧
    ¬ occursIn "\n---\n" promptTemplate := by
  refine ⟨by decide, by decide, sep_not_in_template⟩

end Rag
